import Mathlib

/-!
# FNFT: the spectral array toolbox of `fnft__misc.c`

A shallow embedding of the routines of `src/private/fnft__misc.c`
(`misc_filter`, `misc_filter_inv`, `misc_filter_nonreal`, `misc_merge`,
`misc_downsample`, `misc_hausdorff_dist`, `misc_rel_err`,
`misc_nextpowerof2`) and of the two spectral-parameter maps declared in
`fnft__kdv_discretization.h`, together with theorems about them.

Conventions of the embedding.

* `FNFT_REAL` (a C `double`) is `REAL`: a finite value, one of the two
  infinities, or NaN.  Only the ordered comparisons of the C code are
  interpreted; they are exact on doubles, and every comparison with NaN is
  false.  Finite values are rationals, which contain every finite double.
* `FNFT_COMPLEX` is a pair of `REAL`s.
* A C array is a `List`; a pointer that may be `NULL` is an `Option`.
* A function returns `none` when the C code would read outside one of its
  arrays (undefined behaviour), and `some` of its return code and the final
  contents of the memory it was handed otherwise.
* The operations on doubles that round (`CABS`, complex subtraction, the
  addition and the division of doubles) are parameters of the functions
  using them.  What a theorem needs of them is stated as an assumption, and
  the concrete evaluations use exact instances on inputs where the C
  operations are exact, or `csub_overflow` where the difference of two
  doubles exceeds the range of a double and is an infinity.
* `misc_nextpowerof2` is on a `w`-bit `FNFT_UINT`, its product taken modulo
  `2^w`; elsewhere no counter can wrap and `FNFT_UINT` is `Nat`.
* The maps of `fnft__kdv_discretization.h`, whose bodies are not among the
  sources, are modelled from the specification on exact complex numbers.
-/

namespace FNFT

/-! ## Numeric types -/

/-- FNFT_REAL: the values of a C double as far as comparisons see them. -/
inductive REAL where
  | fin (q : ℚ)
  | pinf
  | ninf
  | nan
  deriving DecidableEq

/-- The C comparison `a <= b` on doubles; false as soon as one side is NaN. -/
def REAL.le : REAL → REAL → Bool
  | .nan, _ => false
  | _, .nan => false
  | .ninf, _ => true
  | _, .pinf => true
  | .fin a, .fin b => decide (a ≤ b)
  | .fin _, .ninf => false
  | .pinf, .fin _ => false
  | .pinf, .ninf => false

/-- The C comparison `a < b` on doubles; false as soon as one side is NaN. -/
def REAL.lt : REAL → REAL → Bool
  | .nan, _ => false
  | _, .nan => false
  | .pinf, _ => false
  | _, .ninf => false
  | .fin a, .fin b => decide (a < b)
  | .fin _, .pinf => true
  | .ninf, .fin _ => true
  | .ninf, .pinf => true

/-- The C comparison `a >= b`. -/
def REAL.ge (a b : REAL) : Bool := REAL.le b a

/-- The C comparison `a > b`. -/
def REAL.gt (a b : REAL) : Bool := REAL.lt b a

/-- A double that is neither NaN nor infinite. -/
def REAL.isFinite : REAL → Bool
  | .fin _ => true
  | _ => false

/-- FNFT_COMPLEX: real and imaginary part. -/
structure COMPLEX where
  re : REAL
  im : REAL
  deriving DecidableEq

/-- CREAL of the C code. -/
def CREAL (z : COMPLEX) : REAL := z.re

/-- CIMAG of the C code. -/
def CIMAG (z : COMPLEX) : REAL := z.im

/-- FNFT_UINT. None of the counters of the array routines below can wrap:
each is bounded by the length of an array the routine was handed. -/
abbrev UINT := Nat

/-- The return codes used by `fnft__misc.c`. `E_INVALID_ARGUMENT` stands for
every `E_INVALID_ARGUMENT(name)`. -/
inductive RetCode where
  | SUCCESS
  | E_INVALID_ARGUMENT
  | E_NOMEM
  deriving DecidableEq

/-- The four entries `bounding_box[0..3]` = re_min, re_max, im_min, im_max. -/
structure BoundingBox where
  b0 : REAL
  b1 : REAL
  b2 : REAL
  b3 : REAL
  deriving DecidableEq

/-- What a call of `misc_filter` or `misc_filter_inv` leaves behind: the
return code, `*N_ptr`, `vals` and `rearrange_as_well` (`none` for `NULL`). -/
structure FilterOut where
  ret : RetCode
  N : Option UINT
  vals : Option (List COMPLEX)
  rearrange_as_well : Option (List COMPLEX)
  deriving DecidableEq

/-- What a call of `misc_filter_nonreal` or `misc_merge` leaves behind: the
return code, `*N_ptr` and `vals`. -/
structure PackOut where
  ret : RetCode
  N : Option UINT
  vals : Option (List COMPLEX)
  deriving DecidableEq

/-! ## misc_filter -/

/-- The `for (i=0; i<N_local; i++)` loop of `misc_filter`; the first argument
counts the iterations still to run. -/
def misc_filter_loop (bounding_box : BoundingBox) :
    Nat → UINT → UINT → List COMPLEX → Option (List COMPLEX) →
    Option (UINT × List COMPLEX × Option (List COMPLEX))
  | 0, _, N_filtered, vals, rearrange_as_well => some (N_filtered, vals, rearrange_as_well)
  | n + 1, i, N_filtered, vals, rearrange_as_well =>
    match vals[i]? with
    | none => none
    | some v =>
      if !(REAL.ge (CREAL v) bounding_box.b0) then
        misc_filter_loop bounding_box n (i + 1) N_filtered vals rearrange_as_well
      else if !(REAL.le (CREAL v) bounding_box.b1) then
        misc_filter_loop bounding_box n (i + 1) N_filtered vals rearrange_as_well
      else if !(REAL.ge (CIMAG v) bounding_box.b2) then
        misc_filter_loop bounding_box n (i + 1) N_filtered vals rearrange_as_well
      else if !(REAL.le (CIMAG v) bounding_box.b3) then
        misc_filter_loop bounding_box n (i + 1) N_filtered vals rearrange_as_well
      else
        match rearrange_as_well with
        | none =>
          misc_filter_loop bounding_box n (i + 1) (N_filtered + 1) (vals.set N_filtered v) none
        | some r =>
          match r[i]? with
          | none => none
          | some w =>
            misc_filter_loop bounding_box n (i + 1) (N_filtered + 1)
              (vals.set N_filtered v) (some (r.set N_filtered w))

/-- The function `misc_filter` of `fnft__misc.c`. -/
def misc_filter (N_ptr : Option UINT) (vals : Option (List COMPLEX))
    (rearrange_as_well : Option (List COMPLEX)) (bounding_box : Option BoundingBox) :
    Option FilterOut :=
  match N_ptr with
  | none => some ⟨.E_INVALID_ARGUMENT, N_ptr, vals, rearrange_as_well⟩
  | some N_local =>
    match vals with
    | none => some ⟨.E_INVALID_ARGUMENT, N_ptr, vals, rearrange_as_well⟩
    | some v =>
      match bounding_box with
      | none => some ⟨.E_INVALID_ARGUMENT, N_ptr, vals, rearrange_as_well⟩
      | some bb =>
        if !(REAL.le bb.b0 bb.b1) || !(REAL.le bb.b2 bb.b3) then
          some ⟨.E_INVALID_ARGUMENT, N_ptr, vals, rearrange_as_well⟩
        else
          match misc_filter_loop bb N_local 0 0 v rearrange_as_well with
          | none => none
          | some (N_filtered, v1, r1) => some ⟨.SUCCESS, some N_filtered, some v1, r1⟩

/-! ## misc_filter_inv -/

/-- The `for (i=0; i<N_local; i++)` loop of `misc_filter_inv`. -/
def misc_filter_inv_loop (bounding_box : BoundingBox) :
    Nat → UINT → UINT → List COMPLEX → Option (List COMPLEX) →
    Option (UINT × List COMPLEX × Option (List COMPLEX))
  | 0, _, N_filtered, vals, rearrange_as_well => some (N_filtered, vals, rearrange_as_well)
  | n + 1, i, N_filtered, vals, rearrange_as_well =>
    match vals[i]? with
    | none => none
    | some v =>
      let ok_flag : Nat := 0
      let ok_flag := if !(REAL.gt (CREAL v) bounding_box.b0) then 1 else ok_flag
      let ok_flag := if !(REAL.lt (CREAL v) bounding_box.b1) then 1 else ok_flag
      let ok_flag := if !(REAL.gt (CIMAG v) bounding_box.b2) then 1 else ok_flag
      let ok_flag := if !(REAL.lt (CIMAG v) bounding_box.b3) then 1 else ok_flag
      if ok_flag = 1 then
        match rearrange_as_well with
        | none =>
          misc_filter_inv_loop bounding_box n (i + 1) (N_filtered + 1)
            (vals.set N_filtered v) none
        | some r =>
          match r[i]? with
          | none => none
          | some w =>
            misc_filter_inv_loop bounding_box n (i + 1) (N_filtered + 1)
              (vals.set N_filtered v) (some (r.set N_filtered w))
      else
        misc_filter_inv_loop bounding_box n (i + 1) N_filtered vals rearrange_as_well

/-- The function `misc_filter_inv` of `fnft__misc.c`. -/
def misc_filter_inv (N_ptr : Option UINT) (vals : Option (List COMPLEX))
    (rearrange_as_well : Option (List COMPLEX)) (bounding_box : Option BoundingBox) :
    Option FilterOut :=
  match N_ptr with
  | none => some ⟨.E_INVALID_ARGUMENT, N_ptr, vals, rearrange_as_well⟩
  | some N_local =>
    match vals with
    | none => some ⟨.E_INVALID_ARGUMENT, N_ptr, vals, rearrange_as_well⟩
    | some v =>
      match bounding_box with
      | none => some ⟨.E_INVALID_ARGUMENT, N_ptr, vals, rearrange_as_well⟩
      | some bb =>
        if !(REAL.le bb.b0 bb.b1) || !(REAL.le bb.b2 bb.b3) then
          some ⟨.E_INVALID_ARGUMENT, N_ptr, vals, rearrange_as_well⟩
        else
          match misc_filter_inv_loop bb N_local 0 0 v rearrange_as_well with
          | none => none
          | some (N_filtered, v1, r1) => some ⟨.SUCCESS, some N_filtered, some v1, r1⟩

/-! ## misc_filter_nonreal -/

/-- FABS on doubles: exact, and NaN for NaN. -/
def FABS : REAL → REAL
  | .fin q => .fin |q|
  | .pinf => .pinf
  | .ninf => .pinf
  | .nan => .nan

/-- The `for (i=0; i<N_local; i++)` loop of `misc_filter_nonreal`. -/
def misc_filter_nonreal_loop (tol_im : REAL) :
    Nat → UINT → UINT → List COMPLEX → Option (UINT × List COMPLEX)
  | 0, _, N_filtered, vals => some (N_filtered, vals)
  | n + 1, i, N_filtered, vals =>
    match vals[i]? with
    | none => none
    | some v =>
      if !(REAL.gt (FABS (CIMAG v)) tol_im) then
        misc_filter_nonreal_loop tol_im n (i + 1) N_filtered vals
      else
        misc_filter_nonreal_loop tol_im n (i + 1) (N_filtered + 1) (vals.set N_filtered v)

/-- The function `misc_filter_nonreal` of `fnft__misc.c`. -/
def misc_filter_nonreal (N_ptr : Option UINT) (vals : Option (List COMPLEX)) (tol_im : REAL) :
    Option PackOut :=
  match N_ptr with
  | none => some ⟨.E_INVALID_ARGUMENT, N_ptr, vals⟩
  | some N_local =>
    match vals with
    | none => some ⟨.E_INVALID_ARGUMENT, N_ptr, vals⟩
    | some v =>
      if !(REAL.ge tol_im (.fin 0)) then
        some ⟨.E_INVALID_ARGUMENT, N_ptr, vals⟩
      else
        match misc_filter_nonreal_loop tol_im N_local 0 0 v with
        | none => none
        | some (N_filtered, v1) => some ⟨.SUCCESS, some N_filtered, some v1⟩

/-! ## Reference predicates and the generic compaction loop -/

/-- The inclusive box test of the header of `misc_filter`:
`bounding_box[0] <= real(val) <= bounding_box[1]` and
`bounding_box[2] <= imag(val) <= bounding_box[3]`. -/
def in_box (bb : BoundingBox) (v : COMPLEX) : Bool :=
  REAL.le bb.b0 v.re && REAL.le v.re bb.b1 && REAL.le bb.b2 v.im && REAL.le v.im bb.b3

/-- The keep-test `misc_filter_inv` evaluates: one of the four negated strict
comparisons holds. -/
def inv_keep (bb : BoundingBox) (v : COMPLEX) : Bool :=
  !(REAL.lt bb.b0 v.re) || !(REAL.lt v.re bb.b1) || !(REAL.lt bb.b2 v.im) || !(REAL.lt v.im bb.b3)

/-- Strictly outside the box on at least one axis. -/
def strictly_outside (bb : BoundingBox) (v : COMPLEX) : Bool :=
  REAL.lt v.re bb.b0 || REAL.lt bb.b1 v.re || REAL.lt v.im bb.b2 || REAL.lt bb.b3 v.im

/-- Strictly inside the box on both axes. -/
def strictly_inside (bb : BoundingBox) (v : COMPLEX) : Bool :=
  REAL.lt bb.b0 v.re && REAL.lt v.re bb.b1 && REAL.lt bb.b2 v.im && REAL.lt v.im bb.b3

/-- The keep-test of `misc_filter_nonreal`: `|Im| > tol_im`. -/
def nonreal_keep (tol_im : REAL) (v : COMPLEX) : Bool :=
  REAL.lt tol_im (FABS v.im)

/-- The compaction pattern the three filters share: scan `n` entries from
index `i`, copy each entry satisfying `p` to index `k` and advance `k`. -/
def packLoop {α : Type} (p : α → Bool) : Nat → Nat → Nat → List α → Option (Nat × List α)
  | 0, _, k, l => some (k, l)
  | n + 1, i, k, l =>
    match l[i]? with
    | none => none
    | some a =>
      if p a then packLoop p n (i + 1) (k + 1) (l.set k a)
      else packLoop p n (i + 1) k l

/-- The same compaction with an optional companion array that is rearranged
together with the primary one. -/
def packLoop2 {α β : Type} (p : α → Bool) :
    Nat → Nat → Nat → List α → Option (List β) → Option (Nat × List α × Option (List β))
  | 0, _, k, l, r => some (k, l, r)
  | n + 1, i, k, l, r =>
    match l[i]? with
    | none => none
    | some a =>
      if p a then
        match r with
        | none => packLoop2 p n (i + 1) (k + 1) (l.set k a) none
        | some r0 =>
          match r0[i]? with
          | none => none
          | some b => packLoop2 p n (i + 1) (k + 1) (l.set k a) (some (r0.set k b))
      else packLoop2 p n (i + 1) k l r

/-! ## misc_merge -/

/-- The inner loop `for (j = 0; j < i; j++)` of `misc_merge`, with its
`break`. The result is the value `dist` holds when the loop is left. `CABS`
and `csub` are the modulus and the complex subtraction of the C library. -/
def misc_merge_inner (CABS : COMPLEX → REAL) (csub : COMPLEX → COMPLEX → COMPLEX) (tol : REAL)
    (vals : List COMPLEX) (i : UINT) : Nat → UINT → REAL → Option REAL
  | 0, _, dist => some dist
  | n + 1, j, _ =>
    match vals[j]?, vals[i]? with
    | some a, some b =>
      let dist := CABS (csub a b)
      if REAL.lt dist tol then some dist
      else misc_merge_inner CABS csub tol vals i n (j + 1) dist
    | _, _ => none

/-- The outer loop `for (i=1; i<N; i++)` of `misc_merge`. -/
def misc_merge_loop (CABS : COMPLEX → REAL) (csub : COMPLEX → COMPLEX → COMPLEX) (tol : REAL) :
    Nat → UINT → UINT → REAL → List COMPLEX → Option (UINT × List COMPLEX)
  | 0, _, N_filtered, _, vals => some (N_filtered, vals)
  | n + 1, i, N_filtered, dist, vals =>
    match misc_merge_inner CABS csub tol vals i i 0 dist with
    | none => none
    | some dist =>
      if REAL.lt dist tol then
        misc_merge_loop CABS csub tol n (i + 1) N_filtered dist vals
      else
        match vals[i]? with
        | none => none
        | some v =>
          misc_merge_loop CABS csub tol n (i + 1) (N_filtered + 1) dist (vals.set N_filtered v)

/-- The function `misc_merge` of `fnft__misc.c`. -/
def misc_merge (CABS : COMPLEX → REAL) (csub : COMPLEX → COMPLEX → COMPLEX)
    (N_ptr : Option UINT) (vals : Option (List COMPLEX)) (tol : REAL) : Option PackOut :=
  match N_ptr with
  | none => some ⟨.E_INVALID_ARGUMENT, N_ptr, vals⟩
  | some N =>
    if N = 0 then some ⟨.SUCCESS, N_ptr, vals⟩
    else
      match vals with
      | none => some ⟨.E_INVALID_ARGUMENT, N_ptr, vals⟩
      | some v =>
        if REAL.lt tol (.fin 0) then some ⟨.E_INVALID_ARGUMENT, N_ptr, vals⟩
        else
          match misc_merge_loop CABS csub tol (N - 1) 1 1 (.fin (-1)) v with
          | none => none
          | some (N_filtered, v1) => some ⟨.SUCCESS, some N_filtered, some v1⟩

/-- The greedy deduplication of the specification: scanning in the original
order, a value is kept if and only if its distance to every previously kept
value is `>= tol`. The first argument holds the values kept so far. -/
def greedy_keep (CABS : COMPLEX → REAL) (csub : COMPLEX → COMPLEX → COMPLEX) (tol : REAL) :
    List COMPLEX → List COMPLEX → List COMPLEX
  | kept, [] => kept
  | kept, v :: rest =>
    if kept.all (fun a => REAL.ge (CABS (csub a v)) tol) then
      greedy_keep CABS csub tol (kept ++ [v]) rest
    else greedy_keep CABS csub tol kept rest

/-- The greedy deduplication of the specification; the first value is always
kept. -/
def greedy_merge (CABS : COMPLEX → REAL) (csub : COMPLEX → COMPLEX → COMPLEX) (tol : REAL) :
    List COMPLEX → List COMPLEX
  | [] => []
  | v :: rest => greedy_keep CABS csub tol [v] rest

/-- Subtraction of doubles where it is exact: on rationals for finite
operands, with the IEEE rules for infinities and NaN. -/
def REAL.sub : REAL → REAL → REAL
  | .nan, _ => .nan
  | _, .nan => .nan
  | .fin a, .fin b => .fin (a - b)
  | .pinf, .pinf => .nan
  | .ninf, .ninf => .nan
  | .pinf, _ => .pinf
  | .ninf, _ => .ninf
  | .fin _, .pinf => .ninf
  | .fin _, .ninf => .pinf

/-- Complex subtraction, componentwise and exact; used for the concrete
inputs below, all small integers, on which the C subtraction is exact. -/
def csub_exact (a b : COMPLEX) : COMPLEX := ⟨REAL.sub a.re b.re, REAL.sub a.im b.im⟩

/-- The modulus on the real axis: `CABS(x + 0i) = |x|`, which is exact, and
NaN for a NaN. It stands for `CABS` in the concrete evaluations below, whose
inputs all lie on the real axis. -/
def CABS_real_axis (z : COMPLEX) : REAL := FABS z.re

/-- ROUND of the C code (`round`: to the nearest integer, halves away from
zero), on exact rationals. -/
def ROUND (x : ℚ) : ℤ := if 0 ≤ x then ⌊x + 1 / 2⌋ else -⌊-x + 1 / 2⌋

/-- What a call of `misc_downsample` leaves behind: the return code,
`*Dsub_ptr`, `*qsub_ptr` (a pointer, `none` inside for one that was never
set to a buffer) and the two entries of `first_last_index`. -/
structure DownsampleOut where
  ret : RetCode
  Dsub : Option UINT
  qsub : Option (Option (List COMPLEX))
  first_last_index : Option (UINT × UINT)
  deriving DecidableEq

/-- The loop `for (isub=0; isub<Dsub; isub++)` of `misc_downsample`; it returns
the final `i` and the filled buffer. -/
def misc_downsample_loop (q : List COMPLEX) (nskip_per_step : UINT) :
    Nat → UINT → UINT → List COMPLEX → Option (UINT × List COMPLEX)
  | 0, _, i, qsub => some (i, qsub)
  | n + 1, isub, i, qsub =>
    match q[i]? with
    | none => none
    | some v =>
      if isub < qsub.length then
        misc_downsample_loop q nskip_per_step n (isub + 1) (i + nskip_per_step) (qsub.set isub v)
      else none

/-- The function `misc_downsample` of `fnft__misc.c`. `malloc n` is the
buffer of `n` entries the allocator hands out (of arbitrary content), or
`none` when it fails. The array `q` has `D` entries. -/
def misc_downsample (malloc : UINT → Option (List COMPLEX)) (D : UINT)
    (q : Option (List COMPLEX)) (Dsub_ptr : Option UINT)
    (qsub_ptr : Option (Option (List COMPLEX))) (first_last_index : Option (UINT × UINT)) :
    Option DownsampleOut :=
  match q with
  | none => some ⟨.E_INVALID_ARGUMENT, Dsub_ptr, qsub_ptr, first_last_index⟩
  | some qv =>
    if D ≤ 2 then some ⟨.E_INVALID_ARGUMENT, Dsub_ptr, qsub_ptr, first_last_index⟩
    else
      match qsub_ptr with
      | none => some ⟨.E_INVALID_ARGUMENT, Dsub_ptr, qsub_ptr, first_last_index⟩
      | some _ =>
        match Dsub_ptr with
        | none => some ⟨.E_INVALID_ARGUMENT, Dsub_ptr, qsub_ptr, first_last_index⟩
        | some desired =>
          match first_last_index with
          | none => some ⟨.E_INVALID_ARGUMENT, Dsub_ptr, qsub_ptr, first_last_index⟩
          | some _ =>
            let Dsub : UINT := desired
            let Dsub : UINT := if Dsub < 2 then 2 else Dsub
            let Dsub : UINT := if Dsub > D then D else Dsub
            let nskip_per_step : UINT := (ROUND ((D : ℚ) / (Dsub : ℚ))).toNat
            let Dsub : UINT := (ROUND ((D : ℚ) / (nskip_per_step : ℚ))).toNat
            match malloc Dsub with
            | none => some ⟨.E_NOMEM, Dsub_ptr, qsub_ptr, first_last_index⟩
            | some qsub =>
              match misc_downsample_loop qv nskip_per_step Dsub 0 0 qsub with
              | none => none
              | some (i, qsub1) => some ⟨.SUCCESS, some Dsub, some (some qsub1), some (0, i - 1)⟩

/-! ## misc_nextpowerof2 -/

/-- The loop `while (result < number) result *= 2;` of `misc_nextpowerof2`
on a `w`-bit unsigned type: the product wraps modulo `2^w`. The first
argument bounds the number of iterations; `none` when it does not suffice. -/
def misc_nextpowerof2_loop (w : Nat) (number : UINT) : Nat → UINT → Option UINT
  | 0, result => if result < number then none else some result
  | fuel + 1, result =>
    if result < number then misc_nextpowerof2_loop w number fuel ((result * 2) % 2 ^ w)
    else some result

/-- The function `misc_nextpowerof2` of `fnft__misc.c` for a `w`-bit
`FNFT_UINT`; `number` is below `2^w`. -/
def misc_nextpowerof2 (w fuel : Nat) (number : UINT) : Option UINT :=
  if number = 0 then some 0
  else misc_nextpowerof2_loop w number fuel (1 % 2 ^ w)

/-! ## misc_hausdorff_dist -/

/-- The inner loop `for (j=0; j<lenB; j++)` of the first half of
`misc_hausdorff_dist`, for a fixed `i`; it returns the final `dist`. -/
def misc_hausdorff_dist_innerB (CABS : COMPLEX → REAL) (csub : COMPLEX → COMPLEX → COMPLEX)
    (vecA vecB : List COMPLEX) (i : UINT) : Nat → UINT → REAL → Option REAL
  | 0, _, dist => some dist
  | n + 1, j, dist =>
    match vecA[i]?, vecB[j]? with
    | some a, some b =>
      let tmp := CABS (csub a b)
      if REAL.lt tmp dist then misc_hausdorff_dist_innerB CABS csub vecA vecB i n (j + 1) tmp
      else misc_hausdorff_dist_innerB CABS csub vecA vecB i n (j + 1) dist
    | _, _ => none

/-- The outer loop `for (i=0; i<lenA; i++)` of the first half of
`misc_hausdorff_dist`; it returns the final `max_dist`. -/
def misc_hausdorff_dist_loopA (CABS : COMPLEX → REAL) (csub : COMPLEX → COMPLEX → COMPLEX)
    (vecA vecB : List COMPLEX) (lenB : UINT) : Nat → UINT → REAL → Option REAL
  | 0, _, max_dist => some max_dist
  | n + 1, i, max_dist =>
    match misc_hausdorff_dist_innerB CABS csub vecA vecB i lenB 0 .pinf with
    | none => none
    | some dist =>
      if REAL.gt dist max_dist then
        misc_hausdorff_dist_loopA CABS csub vecA vecB lenB n (i + 1) dist
      else misc_hausdorff_dist_loopA CABS csub vecA vecB lenB n (i + 1) max_dist

/-- The inner loop `for (i=0; i<lenA; i++)` of the second half of
`misc_hausdorff_dist`, for a fixed `j`. -/
def misc_hausdorff_dist_innerA (CABS : COMPLEX → REAL) (csub : COMPLEX → COMPLEX → COMPLEX)
    (vecA vecB : List COMPLEX) (j : UINT) : Nat → UINT → REAL → Option REAL
  | 0, _, dist => some dist
  | n + 1, i, dist =>
    match vecA[i]?, vecB[j]? with
    | some a, some b =>
      let tmp := CABS (csub a b)
      if REAL.lt tmp dist then misc_hausdorff_dist_innerA CABS csub vecA vecB j n (i + 1) tmp
      else misc_hausdorff_dist_innerA CABS csub vecA vecB j n (i + 1) dist
    | _, _ => none

/-- The outer loop `for (j=0; j<lenB; j++)` of the second half of
`misc_hausdorff_dist`. -/
def misc_hausdorff_dist_loopB (CABS : COMPLEX → REAL) (csub : COMPLEX → COMPLEX → COMPLEX)
    (vecA vecB : List COMPLEX) (lenA : UINT) : Nat → UINT → REAL → Option REAL
  | 0, _, max_dist => some max_dist
  | n + 1, j, max_dist =>
    match misc_hausdorff_dist_innerA CABS csub vecA vecB j lenA 0 .pinf with
    | none => none
    | some dist =>
      if REAL.gt dist max_dist then
        misc_hausdorff_dist_loopB CABS csub vecA vecB lenA n (j + 1) dist
      else misc_hausdorff_dist_loopB CABS csub vecA vecB lenA n (j + 1) max_dist

/-- The function `misc_hausdorff_dist` of `fnft__misc.c`; `max_dist` starts at
-1.0 and each `dist` at INFINITY. -/
def misc_hausdorff_dist (CABS : COMPLEX → REAL) (csub : COMPLEX → COMPLEX → COMPLEX)
    (lenA : UINT) (vecA : List COMPLEX) (lenB : UINT) (vecB : List COMPLEX) : Option REAL :=
  match misc_hausdorff_dist_loopA CABS csub vecA vecB lenB lenA 0 (.fin (-1)) with
  | none => none
  | some max_dist => misc_hausdorff_dist_loopB CABS csub vecA vecB lenA lenB 0 max_dist

/-- The smaller of two doubles, as `fmin` of the C library: a NaN argument is
ignored. -/
def REAL.fmin : REAL → REAL → REAL
  | .nan, b => b
  | a, .nan => a
  | .ninf, _ => .ninf
  | _, .ninf => .ninf
  | .pinf, b => b
  | a, .pinf => a
  | .fin a, .fin b => .fin (min a b)

/-- The larger of two doubles, as `fmax` of the C library: a NaN argument is
ignored. -/
def REAL.fmax : REAL → REAL → REAL
  | .nan, b => b
  | a, .nan => a
  | .pinf, _ => .pinf
  | _, .pinf => .pinf
  | .ninf, b => b
  | a, .ninf => a
  | .fin a, .fin b => .fin (max a b)

/-- The least of the distances from `a` to the points of `B` (+infinity for
no point). -/
def min_dist_to (dist : COMPLEX → COMPLEX → REAL) (B : List COMPLEX) (a : COMPLEX) : REAL :=
  (B.map (fun b => dist a b)).foldl REAL.fmin .pinf

/-- The least of the distances from the points of `A` to `b`. -/
def min_dist_from (dist : COMPLEX → COMPLEX → REAL) (A : List COMPLEX) (b : COMPLEX) : REAL :=
  (A.map (fun a => dist a b)).foldl REAL.fmin .pinf

/-- The two-sided Hausdorff distance of the specification: the larger of
`max over a in A of min over b in B of dist a b` and
`max over b in B of min over a in A of dist a b`. -/
def hausdorff_ref (dist : COMPLEX → COMPLEX → REAL) (A B : List COMPLEX) : REAL :=
  REAL.fmax ((A.map (min_dist_to dist B)).foldl REAL.fmax .ninf)
    ((B.map (min_dist_from dist A)).foldl REAL.fmax .ninf)

/-! ## misc_rel_err -/

/-- The loop `for (i=0; i<len; i++)` of `misc_rel_err`; it returns the final
`n` and `d`. `fadd` is the addition of doubles. -/
def misc_rel_err_loop (CABS : COMPLEX → REAL) (csub : COMPLEX → COMPLEX → COMPLEX)
    (fadd : REAL → REAL → REAL) (vec_numer vec_exact : List COMPLEX) :
    Nat → Nat → REAL → REAL → Option (REAL × REAL)
  | 0, _, n, d => some (n, d)
  | k + 1, i, n, d =>
    match vec_numer[i]?, vec_exact[i]? with
    | some x, some y =>
      misc_rel_err_loop CABS csub fadd vec_numer vec_exact k (i + 1)
        (fadd n (CABS (csub x y))) (fadd d (CABS y))
    | _, _ => none

/-- The function `misc_rel_err` of `fnft__misc.c`. `len` is a signed `INT`:
the loop runs `len` times for `len >= 0` and not at all otherwise. `fdiv` is
the division of doubles. -/
def misc_rel_err (CABS : COMPLEX → REAL) (csub : COMPLEX → COMPLEX → COMPLEX)
    (fadd fdiv : REAL → REAL → REAL) (len : Int) (vec_numer vec_exact : List COMPLEX) :
    Option REAL :=
  match misc_rel_err_loop CABS csub fadd vec_numer vec_exact len.toNat 0 (.fin 0) (.fin 0) with
  | none => none
  | some (n, d) => some (fdiv n d)

/-- Addition of doubles where it is exact: on rationals for finite operands,
with the IEEE rules for infinities and NaN. -/
def REAL.add : REAL → REAL → REAL
  | .nan, _ => .nan
  | _, .nan => .nan
  | .fin a, .fin b => .fin (a + b)
  | .pinf, .ninf => .nan
  | .ninf, .pinf => .nan
  | .pinf, _ => .pinf
  | .ninf, _ => .ninf
  | .fin _, .pinf => .pinf
  | .fin _, .ninf => .ninf

/-- Division of doubles where it is exact, with the IEEE rules for
infinities and NaN; a zero divisor is taken as +0. -/
def REAL.div : REAL → REAL → REAL
  | .nan, _ => .nan
  | _, .nan => .nan
  | .fin a, .fin b =>
    if b = 0 then (if a = 0 then .nan else if 0 < a then .pinf else .ninf) else .fin (a / b)
  | .fin _, .pinf => .fin 0
  | .fin _, .ninf => .fin 0
  | .pinf, .fin b => if 0 ≤ b then .pinf else .ninf
  | .ninf, .fin b => if 0 ≤ b then .ninf else .pinf
  | .pinf, .pinf => .nan
  | .pinf, .ninf => .nan
  | .ninf, .pinf => .nan
  | .ninf, .ninf => .nan

/-! ## The spectral-parameter maps of the KdV discretizations -/

/-- Modelled from the spec: the map applied to each value by
`fnft__kdv_lambda_to_z`, whose declaration alone is in
`fnft__kdv_discretization.h` (its body, and the table giving `degree1step`
for a discretization, are not among the sources). As the header and the
specification put it, `z = exp(2i*lambda*eps_t/degree1step)`, here on exact
complex numbers. -/
noncomputable def kdv_lambda_to_z (degree1step : ℕ) (eps_t : ℝ) (lam : ℂ) : ℂ :=
  Complex.exp (2 * Complex.I * lam * (eps_t : ℂ) / (degree1step : ℂ))

/-- Modelled from the spec: the map applied to each value by
`fnft__kdv_z_to_lambda`, whose declaration alone is in
`fnft__kdv_discretization.h`. As the header and the specification put it,
`lambda = degree1step*log(z)/(2i*eps_t)` with the principal logarithm, here
on exact complex numbers. -/
noncomputable def kdv_z_to_lambda (degree1step : ℕ) (eps_t : ℝ) (z : ℂ) : ℂ :=
  (degree1step : ℂ) * Complex.log z / (2 * Complex.I * (eps_t : ℂ))

/-! ## Lemmas on lists and on the compaction loop -/

theorem take_succ_set {α : Type} (l : List α) (k : Nat) (a : α) (h : k < l.length) :
    (l.set k a).take (k + 1) = l.take k ++ [a] := by
  induction l generalizing k with
  | nil => simp at h
  | cons b l ih =>
    cases k with
    | zero => simp
    | succ k => simpa using ih k (by simpa using h)

theorem packLoop_spec {α : Type} (p : α → Bool) :
    ∀ (n i k : Nat) (l : List α), k ≤ i → i + n ≤ l.length →
      ∃ l1, packLoop p n i k l = some (k + (((l.drop i).take n).filter p).length, l1) ∧
        l1.take (k + (((l.drop i).take n).filter p).length)
          = l.take k ++ ((l.drop i).take n).filter p ∧
        l1.length = l.length := by
  intro n
  induction n with
  | zero =>
    intro i k l _ _
    exact ⟨l, by simp [packLoop], by simp, rfl⟩
  | succ n ih =>
    intro i k l hk hn
    have hi : i < l.length := by omega
    have hget : l[i]? = some l[i] := List.getElem?_eq_getElem hi
    have hdrop : (l.drop i).take (n + 1) = l[i] :: (l.drop (i + 1)).take n := by
      rw [List.drop_eq_getElem_cons hi, List.take_succ_cons]
    by_cases hp : p l[i] = true
    · obtain ⟨l1, h1, h2, h3⟩ := ih (i + 1) (k + 1) (l.set k l[i]) (by omega)
        (by rw [List.length_set]; omega)
      rw [List.drop_set_of_lt l[i] l (by omega : k < i + 1)] at h1 h2
      rw [take_succ_set l k l[i] (by omega)] at h2
      refine ⟨l1, ?_, ?_, ?_⟩
      · simp only [packLoop, hget, hp, if_true, hdrop, List.filter_cons_of_pos, List.length_cons]
        rw [h1]; congr 2; omega
      · simp only [hdrop, hp, List.filter_cons_of_pos, List.length_cons]
        rw [show k + ((List.filter p (List.take n (List.drop (i + 1) l))).length + 1)
          = k + 1 + (List.filter p (List.take n (List.drop (i + 1) l))).length by omega, h2]
        simp
      · rw [h3, List.length_set]
    · obtain ⟨l1, h1, h2, h3⟩ := ih (i + 1) k l (by omega) (by omega)
      refine ⟨l1, ?_, ?_, h3⟩
      · simp [packLoop, hget, hdrop, hp, h1]
      · simpa [hdrop, hp] using h2

theorem misc_filter_loop_eq (bb : BoundingBox) :
    ∀ (n i k : Nat) (vals : List COMPLEX) (r : Option (List COMPLEX)),
      misc_filter_loop bb n i k vals r = packLoop2 (in_box bb) n i k vals r := by
  intro n
  induction n with
  | zero => intro i k vals r; rfl
  | succ n ih =>
    intro i k vals r
    simp only [misc_filter_loop, packLoop2, ih]
    cases vals[i]? with
    | none => rfl
    | some v =>
      simp only [in_box, REAL.ge, CREAL, CIMAG]
      rcases r with _ | r0
      · by_cases h0 : REAL.le bb.b0 v.re = true <;> by_cases h1 : REAL.le v.re bb.b1 = true <;>
          by_cases h2 : REAL.le bb.b2 v.im = true <;>
          by_cases h3 : REAL.le v.im bb.b3 = true <;> simp [h0, h1, h2, h3]
      · cases hr : r0[i]? <;>
          by_cases h0 : REAL.le bb.b0 v.re = true <;> by_cases h1 : REAL.le v.re bb.b1 = true <;>
          by_cases h2 : REAL.le bb.b2 v.im = true <;>
          by_cases h3 : REAL.le v.im bb.b3 = true <;>
          first | (simp [h0, h1, h2, h3]; done) | (simp [h0, h1, h2, h3]; rw [hr])

theorem misc_filter_inv_loop_eq (bb : BoundingBox) :
    ∀ (n i k : Nat) (vals : List COMPLEX) (r : Option (List COMPLEX)),
      misc_filter_inv_loop bb n i k vals r = packLoop2 (inv_keep bb) n i k vals r := by
  intro n
  induction n with
  | zero => intro i k vals r; rfl
  | succ n ih =>
    intro i k vals r
    simp only [misc_filter_inv_loop, packLoop2, ih]
    cases vals[i]? with
    | none => rfl
    | some v =>
      simp only [inv_keep, REAL.gt, CREAL, CIMAG]
      rcases r with _ | r0
      · by_cases h0 : REAL.lt bb.b0 v.re = true <;> by_cases h1 : REAL.lt v.re bb.b1 = true <;>
          by_cases h2 : REAL.lt bb.b2 v.im = true <;>
          by_cases h3 : REAL.lt v.im bb.b3 = true <;> simp [h0, h1, h2, h3]
      · cases hr : r0[i]? <;>
          by_cases h0 : REAL.lt bb.b0 v.re = true <;> by_cases h1 : REAL.lt v.re bb.b1 = true <;>
          by_cases h2 : REAL.lt bb.b2 v.im = true <;>
          by_cases h3 : REAL.lt v.im bb.b3 = true <;>
          first | (simp [h0, h1, h2, h3]; done) | (simp [h0, h1, h2, h3]; rw [hr])

theorem misc_filter_nonreal_loop_eq (tol_im : REAL) :
    ∀ (n i k : Nat) (vals : List COMPLEX),
      misc_filter_nonreal_loop tol_im n i k vals = packLoop (nonreal_keep tol_im) n i k vals := by
  intro n
  induction n with
  | zero => intro i k vals; rfl
  | succ n ih =>
    intro i k vals
    simp only [misc_filter_nonreal_loop, packLoop, ih]
    cases vals[i]? with
    | none => rfl
    | some v =>
      simp only [nonreal_keep, REAL.gt, CIMAG]
      by_cases h0 : REAL.lt tol_im (FABS v.im) = true <;> simp [h0]

theorem packLoop2_none {α β : Type} (p : α → Bool) :
    ∀ (n i k : Nat) (l : List α),
      packLoop2 p n i k l (none : Option (List β))
        = (packLoop p n i k l).map (fun x => (x.1, x.2, none)) := by
  intro n
  induction n with
  | zero => intro i k l; rfl
  | succ n ih =>
    intro i k l
    simp only [packLoop2, packLoop]
    cases l[i]? with
    | none => rfl
    | some a =>
      by_cases hp : p a = true
      · simp [hp, ih]
      · simp [hp, ih]

theorem zip_set_set {α β : Type} (l : List α) (r : List β) (k : Nat) (a : α) (b : β) :
    (l.set k a).zip (r.set k b) = (l.zip r).set k (a, b) := by
  induction l generalizing r k with
  | nil => simp
  | cons x l ih =>
    cases r with
    | nil => simp
    | cons y r =>
      cases k with
      | zero => simp
      | succ k => simp [ih]

theorem packLoop2_some {α β : Type} (p : α → Bool) :
    ∀ (n i k : Nat) (l : List α) (r : List β), i + n ≤ l.length → i + n ≤ r.length →
      ∃ k1 l1 r1, packLoop2 p n i k l (some r) = some (k1, l1, some r1) ∧
        packLoop (fun x : α × β => p x.1) n i k (l.zip r) = some (k1, l1.zip r1) ∧
        l1.length = l.length ∧ r1.length = r.length := by
  intro n
  induction n with
  | zero => intro i k l r _ _; exact ⟨k, l, r, rfl, rfl, rfl, rfl⟩
  | succ n ih =>
    intro i k l r hl hr
    have hi : i < l.length := by omega
    have hj : i < r.length := by omega
    have hz : (l.zip r)[i]? = some (l[i], r[i]) := by
      rw [List.getElem?_zip_eq_some]
      exact ⟨List.getElem?_eq_getElem hi, List.getElem?_eq_getElem hj⟩
    simp only [packLoop2, packLoop, List.getElem?_eq_getElem hi, List.getElem?_eq_getElem hj, hz]
    by_cases hp : p l[i] = true
    · obtain ⟨k1, l1, r1, h1, h2, h3, h4⟩ := ih (i + 1) (k + 1) (l.set k l[i]) (r.set k r[i])
        (by rw [List.length_set]; omega) (by rw [List.length_set]; omega)
      refine ⟨k1, l1, r1, ?_, ?_, ?_, ?_⟩
      · simp [hp, h1]
      · simp only [hp, if_true]
        rw [← zip_set_set, h2]
      · rw [h3, List.length_set]
      · rw [h4, List.length_set]
    · obtain ⟨k1, l1, r1, h1, h2, h3, h4⟩ := ih (i + 1) k l r (by omega) (by omega)
      exact ⟨k1, l1, r1, by simp [hp, h1], by simp [hp, h2], h3, h4⟩

theorem map_fst_filter_zip {α β : Type} (p : α → Bool) (X : List α) (Y : List β)
    (h : X.length ≤ Y.length) :
    ((X.zip Y).filter (fun x => p x.1)).map Prod.fst = X.filter p := by
  have h1 := List.filter_map (p := p) Prod.fst (X.zip Y)
  rw [List.map_fst_zip X Y h] at h1
  rw [h1]; rfl

theorem take_zip_eq {α β : Type} (n : Nat) (X : List α) (Y : List β) :
    (X.zip Y).take n = (X.take n).zip (Y.take n) := by
  simp only [List.zip_eq_zipWith, List.take_zipWith]

/-- The compaction with an optional companion, run over the first `N`
entries: the survivors, their number, and the companion entries that moved
with them. -/
theorem packLoop2_run {α β : Type} (p : α → Bool) (N : Nat) (l : List α) (r : Option (List β))
    (hl : N ≤ l.length) (hr : ∀ r0, r = some r0 → N ≤ r0.length) :
    ∃ l1 r1, packLoop2 p N 0 0 l r = some (((l.take N).filter p).length, l1, r1) ∧
      l1.take ((l.take N).filter p).length = (l.take N).filter p ∧
      l1.length = l.length ∧
      (r = none → r1 = none) ∧
      (∀ r0, r = some r0 → ∃ r2, r1 = some r2 ∧ r2.length = r0.length ∧
        (l1.take ((l.take N).filter p).length).zip (r2.take ((l.take N).filter p).length)
          = ((l.take N).zip (r0.take N)).filter (fun x => p x.1)) := by
  rcases r with _ | r0
  · obtain ⟨l1, h1, h2, h3⟩ := packLoop_spec p N 0 0 l (Nat.le_refl 0) (by omega)
    simp only [List.drop_zero, Nat.zero_add, List.take_zero, List.nil_append] at h1 h2
    refine ⟨l1, none, ?_, h2, h3, fun _ => rfl, fun r0 h => (by cases h)⟩
    rw [packLoop2_none, h1]; rfl
  · have hr0 : N ≤ r0.length := hr r0 rfl
    obtain ⟨k1, l1, r1, h1, h2, h3, h4⟩ := packLoop2_some p N 0 0 l r0 (by omega) (by omega)
    obtain ⟨z1, g1, g2, _⟩ := packLoop_spec (fun x : α × β => p x.1) N 0 0 (l.zip r0)
      (Nat.le_refl 0) (by simp only [List.length_zip]; omega)
    simp only [List.drop_zero, Nat.zero_add, List.take_zero, List.nil_append, take_zip_eq] at g1 g2
    rw [g1] at h2
    have e1 : (((l.take N).zip (r0.take N)).filter (fun x => p x.1)).length
        = ((l.take N).filter p).length := by
      rw [← map_fst_filter_zip p (l.take N) (r0.take N) (by simp only [List.length_take]; omega),
        List.length_map]
    have e2 : k1 = ((l.take N).filter p).length := by
      have := (Prod.mk.inj (Option.some.inj h2)).1
      omega
    have e3 : z1 = l1.zip r1 := (Prod.mk.inj (Option.some.inj h2)).2
    have hc : ((l.take N).filter p).length ≤ N := by
      have := List.length_filter_le p (l.take N)
      simp only [List.length_take] at this; omega
    rw [e1, e3, take_zip_eq] at g2
    refine ⟨l1, some r1, by rw [h1, e2], ?_, h3, fun h => (by cases h), ?_⟩
    · have := congrArg (List.map Prod.fst) g2
      rw [List.map_fst_zip _ _ (by simp only [List.length_take]; omega),
        map_fst_filter_zip p _ _ (by simp only [List.length_take]; omega)] at this
      exact this
    · intro r0' h
      cases h
      exact ⟨r1, rfl, h4, g2⟩

/-! ## The three filters as compactions -/

theorem misc_filter_eq (N : UINT) (vals : List COMPLEX) (r : Option (List COMPLEX))
    (bb : BoundingBox) (hbox : REAL.le bb.b0 bb.b1 = true ∧ REAL.le bb.b2 bb.b3 = true) :
    misc_filter (some N) (some vals) r (some bb)
      = (packLoop2 (in_box bb) N 0 0 vals r).map
          (fun x => (⟨.SUCCESS, some x.1, some x.2.1, x.2.2⟩ : FilterOut)) := by
  simp only [misc_filter, hbox.1, hbox.2, misc_filter_loop_eq]
  cases packLoop2 (in_box bb) N 0 0 vals r <;> rfl

theorem misc_filter_inv_eq (N : UINT) (vals : List COMPLEX) (r : Option (List COMPLEX))
    (bb : BoundingBox) (hbox : REAL.le bb.b0 bb.b1 = true ∧ REAL.le bb.b2 bb.b3 = true) :
    misc_filter_inv (some N) (some vals) r (some bb)
      = (packLoop2 (inv_keep bb) N 0 0 vals r).map
          (fun x => (⟨.SUCCESS, some x.1, some x.2.1, x.2.2⟩ : FilterOut)) := by
  simp only [misc_filter_inv, hbox.1, hbox.2, misc_filter_inv_loop_eq]
  cases packLoop2 (inv_keep bb) N 0 0 vals r <;> rfl

theorem misc_filter_nonreal_eq (N : UINT) (vals : List COMPLEX) (tol_im : REAL)
    (htol : REAL.le (.fin 0) tol_im = true) :
    misc_filter_nonreal (some N) (some vals) tol_im
      = (packLoop (nonreal_keep tol_im) N 0 0 vals).map
          (fun x => (⟨.SUCCESS, some x.1, some x.2⟩ : PackOut)) := by
  simp only [misc_filter_nonreal, REAL.ge, htol, misc_filter_nonreal_loop_eq]
  cases packLoop (nonreal_keep tol_im) N 0 0 vals <;> rfl

/-! ## The filters: survivors, order and companion -/

/-- C1. For an array of `N` values (held in a buffer `vals` of at least `N`
entries) and a box with `re_min <= re_max` and `im_min <= im_max`,
`misc_filter` returns SUCCESS, sets `*N_ptr` to the number of values passing
the inclusive box test, and leaves exactly those values, in their original
order, in `vals[0..*N_ptr-1]`: the surviving part is `List.filter` of the
input by the inclusive box test. -/
theorem misc_filter_is_filter (N : UINT) (vals : List COMPLEX)
    (rearrange_as_well : Option (List COMPLEX)) (bb : BoundingBox)
    (hbox : REAL.le bb.b0 bb.b1 = true ∧ REAL.le bb.b2 bb.b3 = true)
    (hN : N ≤ vals.length) (hr : ∀ r, rearrange_as_well = some r → N ≤ r.length) :
    ∃ vals1 r1,
      misc_filter (some N) (some vals) rearrange_as_well (some bb)
        = some ⟨.SUCCESS, some ((vals.take N).filter (in_box bb)).length, some vals1, r1⟩ ∧
      vals1.take ((vals.take N).filter (in_box bb)).length = (vals.take N).filter (in_box bb) := by
  obtain ⟨l1, r1, h1, h2, _⟩ := packLoop2_run (in_box bb) N vals rearrange_as_well hN hr
  exact ⟨l1, r1, by rw [misc_filter_eq N vals _ bb hbox, h1]; rfl, h2⟩

/-- Witness of C1: the scenario of the specification. Values (0,0), (5,5),
(-1,-1) and the box re:[-2,2], im:[-2,2] give (0,0), (-1,-1) and N = 2. -/
theorem misc_filter_is_filter_witness :
    (∃ vals1 r1,
      misc_filter (some 3) (some [⟨.fin 0, .fin 0⟩, ⟨.fin 5, .fin 5⟩, ⟨.fin (-1), .fin (-1)⟩]) none
          (some ⟨.fin (-2), .fin 2, .fin (-2), .fin 2⟩)
        = some ⟨.SUCCESS, some 2, some vals1, r1⟩ ∧
      vals1.take 2 = [⟨.fin 0, .fin 0⟩, ⟨.fin (-1), .fin (-1)⟩]) ∧
    misc_filter (some 3) (some [⟨.fin 0, .fin 0⟩, ⟨.fin 5, .fin 5⟩, ⟨.fin (-1), .fin (-1)⟩]) none
        (some ⟨.fin (-2), .fin 2, .fin (-2), .fin 2⟩)
      = some ⟨.SUCCESS, some 2,
          some [⟨.fin 0, .fin 0⟩, ⟨.fin (-1), .fin (-1)⟩, ⟨.fin (-1), .fin (-1)⟩], none⟩ :=
  ⟨misc_filter_is_filter 3 [⟨.fin 0, .fin 0⟩, ⟨.fin 5, .fin 5⟩, ⟨.fin (-1), .fin (-1)⟩] none
      ⟨.fin (-2), .fin 2, .fin (-2), .fin 2⟩ (by decide) (by decide) (fun r h => by cases h),
    by decide⟩

theorem filter_take_length_le {α : Type} (p : α → Bool) (N : Nat) (l : List α) :
    ((l.take N).filter p).length ≤ N := by
  have := List.length_filter_le p (l.take N)
  simp only [List.length_take] at this
  omega

/-- C2. Each of the three filters `misc_filter`, `misc_filter_inv` and
`misc_filter_nonreal`, on a valid input (a well-formed box, resp. a tolerance
`>= 0`, and buffers holding at least `N` entries), returns SUCCESS with a new
length `N1 <= N`, and the surviving part `vals[0..N1-1]` is an
order-preserving sublist of the input `vals[0..N-1]`. -/
theorem filters_sublist (N : UINT) (vals : List COMPLEX)
    (rearrange_as_well : Option (List COMPLEX)) (bb : BoundingBox) (tol_im : REAL)
    (hbox : REAL.le bb.b0 bb.b1 = true ∧ REAL.le bb.b2 bb.b3 = true)
    (htol : REAL.le (.fin 0) tol_im = true)
    (hN : N ≤ vals.length) (hr : ∀ r, rearrange_as_well = some r → N ≤ r.length) :
    (∃ N1 vals1 r1,
      misc_filter (some N) (some vals) rearrange_as_well (some bb)
        = some ⟨.SUCCESS, some N1, some vals1, r1⟩ ∧
      (vals1.take N1).Sublist (vals.take N) ∧ N1 ≤ N) ∧
    (∃ N1 vals1 r1,
      misc_filter_inv (some N) (some vals) rearrange_as_well (some bb)
        = some ⟨.SUCCESS, some N1, some vals1, r1⟩ ∧
      (vals1.take N1).Sublist (vals.take N) ∧ N1 ≤ N) ∧
    (∃ N1 vals1,
      misc_filter_nonreal (some N) (some vals) tol_im = some ⟨.SUCCESS, some N1, some vals1⟩ ∧
      (vals1.take N1).Sublist (vals.take N) ∧ N1 ≤ N) := by
  refine ⟨?_, ?_, ?_⟩
  · obtain ⟨l1, r1, h1, h2, _⟩ := packLoop2_run (in_box bb) N vals rearrange_as_well hN hr
    refine ⟨_, l1, r1, by rw [misc_filter_eq N vals _ bb hbox, h1]; rfl, ?_,
      filter_take_length_le _ N vals⟩
    rw [h2]; exact List.filter_sublist _
  · obtain ⟨l1, r1, h1, h2, _⟩ := packLoop2_run (inv_keep bb) N vals rearrange_as_well hN hr
    refine ⟨_, l1, r1, by rw [misc_filter_inv_eq N vals _ bb hbox, h1]; rfl, ?_,
      filter_take_length_le _ N vals⟩
    rw [h2]; exact List.filter_sublist _
  · obtain ⟨l1, h1, h2, _⟩ := packLoop_spec (nonreal_keep tol_im) N 0 0 vals (Nat.le_refl 0)
      (by rw [Nat.zero_add]; exact hN)
    simp only [List.drop_zero, Nat.zero_add, List.take_zero, List.nil_append] at h1 h2
    refine ⟨_, l1, by rw [misc_filter_nonreal_eq N vals tol_im htol, h1]; rfl, ?_,
      filter_take_length_le _ N vals⟩
    rw [h2]; exact List.filter_sublist _

/-- Witness of C2: three values, a companion array, the box re:[-2,2],
im:[-2,2] and the tolerance 0. -/
theorem filters_sublist_witness :
    (∃ N1 vals1 r1,
      misc_filter (some 3) (some [⟨.fin 0, .fin 0⟩, ⟨.fin 5, .fin 5⟩, ⟨.fin (-1), .fin (-1)⟩])
          (some [⟨.fin 7, .fin 0⟩, ⟨.fin 8, .fin 0⟩, ⟨.fin 9, .fin 0⟩])
          (some ⟨.fin (-2), .fin 2, .fin (-2), .fin 2⟩)
        = some ⟨.SUCCESS, some N1, some vals1, r1⟩ ∧
      (vals1.take N1).Sublist
        (List.take 3 [⟨.fin 0, .fin 0⟩, ⟨.fin 5, .fin 5⟩, ⟨.fin (-1), .fin (-1)⟩]) ∧ N1 ≤ 3) ∧
    (∃ N1 vals1 r1,
      misc_filter_inv (some 3) (some [⟨.fin 0, .fin 0⟩, ⟨.fin 5, .fin 5⟩, ⟨.fin (-1), .fin (-1)⟩])
          (some [⟨.fin 7, .fin 0⟩, ⟨.fin 8, .fin 0⟩, ⟨.fin 9, .fin 0⟩])
          (some ⟨.fin (-2), .fin 2, .fin (-2), .fin 2⟩)
        = some ⟨.SUCCESS, some N1, some vals1, r1⟩ ∧
      (vals1.take N1).Sublist
        (List.take 3 [⟨.fin 0, .fin 0⟩, ⟨.fin 5, .fin 5⟩, ⟨.fin (-1), .fin (-1)⟩]) ∧ N1 ≤ 3) ∧
    (∃ N1 vals1,
      misc_filter_nonreal (some 3)
          (some [⟨.fin 0, .fin 0⟩, ⟨.fin 5, .fin 5⟩, ⟨.fin (-1), .fin (-1)⟩]) (.fin 0)
        = some ⟨.SUCCESS, some N1, some vals1⟩ ∧
      (vals1.take N1).Sublist
        (List.take 3 [⟨.fin 0, .fin 0⟩, ⟨.fin 5, .fin 5⟩, ⟨.fin (-1), .fin (-1)⟩]) ∧ N1 ≤ 3) :=
  filters_sublist 3 [⟨.fin 0, .fin 0⟩, ⟨.fin 5, .fin 5⟩, ⟨.fin (-1), .fin (-1)⟩]
    (some [⟨.fin 7, .fin 0⟩, ⟨.fin 8, .fin 0⟩, ⟨.fin 9, .fin 0⟩])
    ⟨.fin (-2), .fin 2, .fin (-2), .fin 2⟩ (.fin 0) (by decide) (by decide) (by decide)
    (fun r h => by cases h; decide)

/-- C3. With a non-NULL companion `rearrange_as_well` holding at least `N`
entries, `misc_filter` and `misc_filter_inv` leave as pairs
`(vals[i], rearrange_as_well[i])`, `i < N1`, exactly the input pairs
`(vals[k], rearrange_as_well[k])`, `k < N`, whose first component passes the
keep-test of the filter, in order: a companion entry stays with the value it
sat next to. -/
theorem filters_companion (N : UINT) (vals r : List COMPLEX) (bb : BoundingBox)
    (hbox : REAL.le bb.b0 bb.b1 = true ∧ REAL.le bb.b2 bb.b3 = true)
    (hN : N ≤ vals.length) (hr : N ≤ r.length) :
    (∃ N1 vals1 r1,
      misc_filter (some N) (some vals) (some r) (some bb)
        = some ⟨.SUCCESS, some N1, some vals1, some r1⟩ ∧
      (vals1.take N1).zip (r1.take N1)
        = ((vals.take N).zip (r.take N)).filter (fun x => in_box bb x.1)) ∧
    (∃ N1 vals1 r1,
      misc_filter_inv (some N) (some vals) (some r) (some bb)
        = some ⟨.SUCCESS, some N1, some vals1, some r1⟩ ∧
      (vals1.take N1).zip (r1.take N1)
        = ((vals.take N).zip (r.take N)).filter (fun x => inv_keep bb x.1)) := by
  have hr1 : ∀ r0, some r = some r0 → N ≤ r0.length := fun r0 h => by cases h; exact hr
  refine ⟨?_, ?_⟩
  · obtain ⟨l1, r1, h1, _, _, _, h5⟩ := packLoop2_run (in_box bb) N vals (some r) hN hr1
    obtain ⟨r2, e, _, h6⟩ := h5 r rfl
    subst e
    exact ⟨_, l1, r2, by rw [misc_filter_eq N vals _ bb hbox, h1]; rfl, h6⟩
  · obtain ⟨l1, r1, h1, _, _, _, h5⟩ := packLoop2_run (inv_keep bb) N vals (some r) hN hr1
    obtain ⟨r2, e, _, h6⟩ := h5 r rfl
    subst e
    exact ⟨_, l1, r2, by rw [misc_filter_inv_eq N vals _ bb hbox, h1]; rfl, h6⟩

/-- Witness of C3: three values with the companion (7,0), (8,0), (9,0). -/
theorem filters_companion_witness :
    ((∃ N1 vals1 r1,
      misc_filter (some 3) (some [⟨.fin 0, .fin 0⟩, ⟨.fin 5, .fin 5⟩, ⟨.fin (-1), .fin (-1)⟩])
          (some [⟨.fin 7, .fin 0⟩, ⟨.fin 8, .fin 0⟩, ⟨.fin 9, .fin 0⟩])
          (some ⟨.fin (-2), .fin 2, .fin (-2), .fin 2⟩)
        = some ⟨.SUCCESS, some N1, some vals1, some r1⟩ ∧
      (vals1.take N1).zip (r1.take N1)
        = ((List.take 3 [⟨.fin 0, .fin 0⟩, ⟨.fin 5, .fin 5⟩, ⟨.fin (-1), .fin (-1)⟩]).zip
            (List.take 3 [⟨.fin 7, .fin 0⟩, ⟨.fin 8, .fin 0⟩, ⟨.fin 9, .fin 0⟩])).filter
          (fun x => in_box ⟨.fin (-2), .fin 2, .fin (-2), .fin 2⟩ x.1)) ∧
    (∃ N1 vals1 r1,
      misc_filter_inv (some 3) (some [⟨.fin 0, .fin 0⟩, ⟨.fin 5, .fin 5⟩, ⟨.fin (-1), .fin (-1)⟩])
          (some [⟨.fin 7, .fin 0⟩, ⟨.fin 8, .fin 0⟩, ⟨.fin 9, .fin 0⟩])
          (some ⟨.fin (-2), .fin 2, .fin (-2), .fin 2⟩)
        = some ⟨.SUCCESS, some N1, some vals1, some r1⟩ ∧
      (vals1.take N1).zip (r1.take N1)
        = ((List.take 3 [⟨.fin 0, .fin 0⟩, ⟨.fin 5, .fin 5⟩, ⟨.fin (-1), .fin (-1)⟩]).zip
            (List.take 3 [⟨.fin 7, .fin 0⟩, ⟨.fin 8, .fin 0⟩, ⟨.fin 9, .fin 0⟩])).filter
          (fun x => inv_keep ⟨.fin (-2), .fin 2, .fin (-2), .fin 2⟩ x.1))) ∧
    misc_filter (some 3) (some [⟨.fin 0, .fin 0⟩, ⟨.fin 5, .fin 5⟩, ⟨.fin (-1), .fin (-1)⟩])
        (some [⟨.fin 7, .fin 0⟩, ⟨.fin 8, .fin 0⟩, ⟨.fin 9, .fin 0⟩])
        (some ⟨.fin (-2), .fin 2, .fin (-2), .fin 2⟩)
      = some ⟨.SUCCESS, some 2,
          some [⟨.fin 0, .fin 0⟩, ⟨.fin (-1), .fin (-1)⟩, ⟨.fin (-1), .fin (-1)⟩],
          some [⟨.fin 7, .fin 0⟩, ⟨.fin 9, .fin 0⟩, ⟨.fin 9, .fin 0⟩]⟩ :=
  ⟨filters_companion 3 [⟨.fin 0, .fin 0⟩, ⟨.fin 5, .fin 5⟩, ⟨.fin (-1), .fin (-1)⟩]
      [⟨.fin 7, .fin 0⟩, ⟨.fin 8, .fin 0⟩, ⟨.fin 9, .fin 0⟩]
      ⟨.fin (-2), .fin 2, .fin (-2), .fin 2⟩ (by decide) (by decide) (by decide),
    by decide⟩

/-! ## misc_downsample: rounding and the copy loop -/

theorem ROUND_natCast_div (a b : Nat) :
    (ROUND ((a : ℚ) / (b : ℚ))).toNat = (2 * a + b) / (2 * b) := by
  have h0 : (0 : ℚ) ≤ (a : ℚ) / (b : ℚ) := by positivity
  simp only [ROUND, h0, if_true]
  rcases Nat.eq_zero_or_pos b with hb | hb
  · subst hb
    have : ⌊(2 : ℚ)⁻¹⌋ = 0 := by rw [Int.floor_eq_iff]; norm_num
    simp [this]
  · have hb1 : (b : ℚ) ≠ 0 := by exact_mod_cast (Nat.pos_iff_ne_zero.mp hb)
    have e : (a : ℚ) / (b : ℚ) + 1 / 2 = ((2 * a + b : ℕ) : ℚ) / ((2 * b : ℕ) : ℚ) := by
      push_cast
      field_simp
      ring
    rw [e, Rat.floor_natCast_div_natCast]
    exact_mod_cast Int.toNat_natCast _

/-- The arithmetic of the stride: for `2 <= c <= D`, the stride
`s = round(D/c)` is at least 1, the count `round(D/s)` lies in `[2, D]`, and
the last index read, `(round(D/s) - 1) * s`, is below `D`. -/
theorem downsample_arith (D c s : Nat) (hc2 : 2 ≤ c) (hc : c ≤ D)
    (hs : s = (2 * D + c) / (2 * c)) :
    1 ≤ s ∧ 2 ≤ (2 * D + s) / (2 * s) ∧ (2 * D + s) / (2 * s) ≤ D ∧
      ((2 * D + s) / (2 * s) - 1) * s < D := by
  have hs1 : 1 ≤ s := by
    rw [hs, Nat.le_div_iff_mul_le (by omega)]
    omega
  have h1 : s * (2 * c) ≤ 2 * D + c := by
    rw [hs]; exact Nat.div_mul_le_self _ _
  have h2 : 2 * s ≤ D + 1 := by
    have : s * (2 * 2) ≤ s * (2 * c) := Nat.mul_le_mul_left _ (by omega)
    nlinarith
  have h4 : 2 ≤ (2 * D + s) / (2 * s) := by
    rw [Nat.le_div_iff_mul_le (by omega)]; omega
  refine ⟨hs1, h4, ?_, ?_⟩
  · have h5 : D * 1 ≤ D * s := Nat.mul_le_mul_left _ hs1
    have h6 : (2 * D + s) / (2 * s) < D + 1 := by
      rw [Nat.div_lt_iff_lt_mul (by omega)]
      nlinarith
    omega
  · have h3 : (2 * D + s) / (2 * s) * (2 * s) ≤ 2 * D + s := Nat.div_mul_le_self _ _
    obtain ⟨m, hm⟩ : ∃ m, (2 * D + s) / (2 * s) = m + 1 :=
      ⟨_, (Nat.sub_add_cancel (by omega : 1 ≤ (2 * D + s) / (2 * s))).symm⟩
    rw [hm] at h3 ⊢
    simp only [Nat.add_sub_cancel]
    nlinarith

theorem misc_downsample_loop_spec (q : List COMPLEX) (s : Nat) :
    ∀ (n isub i : Nat) (qsub : List COMPLEX), isub + n ≤ qsub.length →
      (∀ k, k < n → i + k * s < q.length) →
      ∃ qsub1, misc_downsample_loop q s n isub i qsub = some (i + n * s, qsub1) ∧
        qsub1.length = qsub.length ∧
        (∀ k, k < n → qsub1[isub + k]? = q[i + k * s]?) ∧
        (∀ j, j < isub → qsub1[j]? = qsub[j]?) := by
  intro n
  induction n with
  | zero =>
    intro isub i qsub _ _
    exact ⟨qsub, by simp [misc_downsample_loop], rfl, fun k hk => by omega, fun _ _ => rfl⟩
  | succ n ih =>
    intro isub i qsub hlen hq
    have hi : i < q.length := by simpa using hq 0 (by omega)
    have hisub : isub < qsub.length := by omega
    obtain ⟨qsub1, h1, h2, h3, h4⟩ := ih (isub + 1) (i + s) (qsub.set isub q[i])
      (by rw [List.length_set]; omega)
      (fun k hk => by
        have := hq (k + 1) (by omega)
        rw [Nat.succ_mul] at this
        omega)
    refine ⟨qsub1, ?_, ?_, ?_, ?_⟩
    · simp only [misc_downsample_loop, List.getElem?_eq_getElem hi, hisub, if_true, h1]
      rw [Nat.succ_mul]
      congr 2
      omega
    · rw [h2, List.length_set]
    · intro k hk
      cases k with
      | zero =>
        rw [Nat.add_zero, Nat.zero_mul, Nat.add_zero, h4 isub (by omega),
          List.getElem?_set_self hisub, List.getElem?_eq_getElem hi]
      | succ k =>
        have := h3 k (by omega)
        rw [show isub + (k + 1) = isub + 1 + k by omega,
          show i + (k + 1) * s = i + s + k * s by rw [Nat.succ_mul]; omega]
        exact this
    · intro j hj
      rw [h4 j (by omega), List.getElem?_set_ne (by omega)]

/-- What a successful call of `misc_downsample` computes: for `D >= 3` samples
and a requested count `c1`, clamped to `c` in `[2, D]`, with the stride
`s = round(D/c)` and the count `n = round(D/s)`, the call returns SUCCESS
with `*Dsub_ptr = n`, a buffer holding `q[0], q[s], ..., q[(n-1)s]`, and
`first_last_index` equal to `(0, n*s - 1)`. -/
theorem misc_downsample_run (malloc : UINT → Option (List COMPLEX)) (D c1 c s n : Nat)
    (q buf : List COMPLEX) (p0 : Option (List COMPLEX)) (p1 : UINT × UINT)
    (hD : 3 ≤ D) (hq : q.length = D) (hcl : c = min (max c1 2) D)
    (hs : s = (ROUND ((D : ℚ) / (c : ℚ))).toNat) (hn : n = (ROUND ((D : ℚ) / (s : ℚ))).toNat)
    (hm : malloc n = some buf) (hbuf : buf.length = n) :
    1 ≤ s ∧ 2 ≤ n ∧ n ≤ D ∧
    ∃ qsub, misc_downsample malloc D (some q) (some c1) (some p0) (some p1)
        = some ⟨.SUCCESS, some n, some (some qsub), some (0, n * s - 1)⟩ ∧
      qsub.length = n ∧ ∀ k, k < n → k * s < D ∧ qsub[k]? = q[k * s]? := by
  rw [ROUND_natCast_div] at hs hn
  have hc2 : 2 ≤ c := by omega
  have hc : c ≤ D := by omega
  obtain ⟨a1, a2, a3, a4⟩ := downsample_arith D c s hc2 hc hs
  rw [← hn] at a2 a3 a4
  have hk : ∀ k, k < n → k * s < D := by
    intro k hk
    have : k * s ≤ (n - 1) * s := Nat.mul_le_mul_right _ (by omega)
    omega
  obtain ⟨qsub, h1, h2, h3, _⟩ := misc_downsample_loop_spec q s n 0 0 buf (by omega)
    (fun k hk1 => by rw [hq, Nat.zero_add]; exact hk k hk1)
  refine ⟨a1, a2, a3, qsub, ?_, by rw [h2, hbuf], fun k hk1 => ⟨hk k hk1, ?_⟩⟩
  · have e1 : ¬ D ≤ 2 := by omega
    have hx : (if (if c1 < 2 then 2 else c1) > D then D else (if c1 < 2 then 2 else c1)) = c := by
      split_ifs <;> omega
    simp only [misc_downsample, e1, if_false, hx, ROUND_natCast_div, ← hs, ← hn, hm, h1,
      Nat.zero_add]
  · have := h3 k hk1
    simpa using this

/-- C4, the code at D = 4 and a requested count of 2: the stride is 2, the
samples retained are `q[0]` and `q[2]`, and the call reports
`first_last_index = (0, 3)`. The last retained sample is `q[2]`, yet index 3
is reported: `first_last_index[1]` is `Dsub*skip - 1`, not `(Dsub-1)*skip`. -/
theorem misc_downsample_last_index_eval :
    misc_downsample (fun n => some (List.replicate n ⟨.fin 0, .fin 0⟩)) 4
        (some [⟨.fin 10, .fin 0⟩, ⟨.fin 11, .fin 0⟩, ⟨.fin 12, .fin 0⟩, ⟨.fin 13, .fin 0⟩])
        (some 2) (some none) (some (0, 0))
      = some ⟨.SUCCESS, some 2, some (some [⟨.fin 10, .fin 0⟩, ⟨.fin 12, .fin 0⟩]), some (0, 3)⟩ ∧
    ([⟨.fin 10, .fin 0⟩, ⟨.fin 11, .fin 0⟩, ⟨.fin 12, .fin 0⟩, ⟨.fin 13, .fin 0⟩] : List COMPLEX)[3]?
      ≠ ([⟨.fin 10, .fin 0⟩, ⟨.fin 12, .fin 0⟩] : List COMPLEX)[2 - 1]? := by
  refine ⟨?_, by decide⟩
  obtain ⟨_, _, _, qsub, h1, h2, h3⟩ := misc_downsample_run
    (fun n => some (List.replicate n ⟨.fin 0, .fin 0⟩)) 4 2 2 2 2
    [⟨.fin 10, .fin 0⟩, ⟨.fin 11, .fin 0⟩, ⟨.fin 12, .fin 0⟩, ⟨.fin 13, .fin 0⟩]
    (List.replicate 2 ⟨.fin 0, .fin 0⟩) none (0, 0) (by decide) rfl (by decide)
    (by rw [ROUND_natCast_div]) (by rw [ROUND_natCast_div]) rfl rfl
  have e0 := (h3 0 (by decide)).2
  have e1 := (h3 1 (by decide)).2
  match qsub, h2, e0, e1 with
  | [a, b], _, e0, e1 =>
    simp only [List.getElem?_cons_zero, Nat.zero_mul, Nat.one_mul, List.getElem?_cons_succ,
      Option.some.injEq] at e0 e1
    rw [h1, e0, e1]

/-- C5. For `D >= 3` samples and a requested count `c1`, treated as
`c = min (max c1 2) D` (so a request in `[2, D]` is taken as it is, one below
2 as 2 and one above `D` as `D`), with the stride `s = round(D/c)` and the
achieved count `n = round(D/s)` (round to nearest, halves away from zero, on
exact rationals): `s >= 1`, `2 <= n <= D`, the call succeeds with
`*Dsub_ptr = n` and `first_last_index[0] = 0`, and the retained samples are
those at the original indices `0, s, 2s, ..., (n-1)s`, all below `D`: the
first retained index is 0, the indices increase strictly and the stride is
constant. -/
theorem misc_downsample_stride (malloc : UINT → Option (List COMPLEX)) (D c1 c s n : Nat)
    (q buf : List COMPLEX) (p0 : Option (List COMPLEX)) (p1 : UINT × UINT)
    (hD : 3 ≤ D) (hq : q.length = D) (hcl : c = min (max c1 2) D)
    (hs : s = (ROUND ((D : ℚ) / (c : ℚ))).toNat) (hn : n = (ROUND ((D : ℚ) / (s : ℚ))).toNat)
    (hm : malloc n = some buf) (hbuf : buf.length = n) :
    1 ≤ s ∧ 2 ≤ n ∧ n ≤ D ∧
    (∀ k, k * s < (k + 1) * s) ∧
    ∃ qsub fli1, misc_downsample malloc D (some q) (some c1) (some p0) (some p1)
        = some ⟨.SUCCESS, some n, some (some qsub), some (0, fli1)⟩ ∧
      qsub.length = n ∧ ∀ k, k < n → k * s < D ∧ qsub[k]? = q[k * s]? := by
  obtain ⟨a1, a2, a3, qsub, h1, h2, h3⟩ :=
    misc_downsample_run malloc D c1 c s n q buf p0 p1 hD hq hcl hs hn hm hbuf
  exact ⟨a1, a2, a3, fun k => by rw [Nat.succ_mul]; omega, qsub, _, h1, h2, h3⟩

/-- Witness of C5: D = 5 samples and a requested count of 9, treated as 5,
give the stride 1 and the count 5. -/
theorem misc_downsample_stride_witness :
    1 ≤ 1 ∧ 2 ≤ 5 ∧ 5 ≤ 5 ∧ (∀ k, k * 1 < (k + 1) * 1) ∧
    ∃ qsub fli1, misc_downsample (fun n => some (List.replicate n ⟨.fin 0, .fin 0⟩)) 5
          (some [⟨.fin 10, .fin 0⟩, ⟨.fin 11, .fin 0⟩, ⟨.fin 12, .fin 0⟩, ⟨.fin 13, .fin 0⟩,
            ⟨.fin 14, .fin 0⟩])
          (some 9) (some none) (some (0, 0))
        = some ⟨.SUCCESS, some 5, some (some qsub), some (0, fli1)⟩ ∧
      qsub.length = 5 ∧ ∀ k, k < 5 → k * 1 < 5 ∧ qsub[k]?
        = ([⟨.fin 10, .fin 0⟩, ⟨.fin 11, .fin 0⟩, ⟨.fin 12, .fin 0⟩, ⟨.fin 13, .fin 0⟩,
            ⟨.fin 14, .fin 0⟩] : List COMPLEX)[k * 1]? :=
  misc_downsample_stride (fun n => some (List.replicate n ⟨.fin 0, .fin 0⟩)) 5 9 5 1 5
    [⟨.fin 10, .fin 0⟩, ⟨.fin 11, .fin 0⟩, ⟨.fin 12, .fin 0⟩, ⟨.fin 13, .fin 0⟩, ⟨.fin 14, .fin 0⟩]
    (List.replicate 5 ⟨.fin 0, .fin 0⟩) none (0, 0) (by decide) rfl (by decide)
    (by rw [ROUND_natCast_div]) (by rw [ROUND_natCast_div]) rfl rfl

/-! ## Comparisons of doubles -/

theorem REAL.lt_eq_le_of_ne (a b : REAL) (h : a ≠ b) : REAL.lt a b = REAL.le a b := by
  cases a <;> cases b <;> simp_all [REAL.lt, REAL.le]
  rename_i x y
  exact ⟨fun h1 => le_of_lt h1, fun h1 => lt_of_le_of_ne h1 h⟩

theorem REAL.le_ne_nan (a b : REAL) (h : REAL.le a b = true) : a ≠ .nan ∧ b ≠ .nan := by
  cases a <;> cases b <;> simp_all [REAL.le]

theorem REAL.le_of_not_lt (a b : REAL) (ha : a ≠ .nan) (hb : b ≠ .nan)
    (h : REAL.lt a b = false) : REAL.le b a = true := by
  cases a <;> cases b <;> simp_all [REAL.lt, REAL.le]

theorem REAL.not_lt_of_le (a b : REAL) (h : REAL.le a b = true) : REAL.lt b a = false := by
  cases a <;> cases b <;> simp_all [REAL.lt, REAL.le]

/-! ## misc_merge -/

theorem misc_merge_inner_spec (CABS : COMPLEX → REAL) (csub : COMPLEX → COMPLEX → COMPLEX)
    (tol : REAL) (vals : List COMPLEX) (i : Nat) (hi : i < vals.length) :
    ∀ (n j : Nat) (dist0 : REAL), j + n ≤ i →
      ∃ d, misc_merge_inner CABS csub tol vals i n j dist0 = some d ∧
        (REAL.lt d tol = false →
          ∀ k a, j ≤ k → k < j + n → vals[k]? = some a →
            REAL.lt (CABS (csub a vals[i])) tol = false) := by
  intro n
  induction n with
  | zero =>
    intro j dist0 _
    exact ⟨dist0, rfl, fun _ k a h1 h2 _ => by omega⟩
  | succ n ih =>
    intro j dist0 hj
    have hjl : j < vals.length := by omega
    simp only [misc_merge_inner, List.getElem?_eq_getElem hjl, List.getElem?_eq_getElem hi]
    by_cases hlt : REAL.lt (CABS (csub vals[j] vals[i])) tol = true
    · refine ⟨CABS (csub vals[j] vals[i]), by simp [hlt], fun h => ?_⟩
      rw [hlt] at h
      cases h
    · obtain ⟨d, h1, h2⟩ := ih (j + 1) (CABS (csub vals[j] vals[i])) (by omega)
      refine ⟨d, by simp [hlt, h1], fun h k a hk1 hk2 hka => ?_⟩
      rcases Nat.eq_or_lt_of_le hk1 with e | e
      · subst e
        rw [List.getElem?_eq_getElem hjl] at hka
        cases hka
        simpa using hlt
      · exact h2 h k a (by omega) (by omega) hka

theorem take_set_same {α : Type} (l : List α) (k : Nat) (a : α) :
    (l.set k a).take k = l.take k := by
  induction l generalizing k with
  | nil => simp
  | cons b l ih =>
    cases k with
    | zero => simp
    | succ k => simpa using ih k

theorem misc_merge_loop_spec (CABS : COMPLEX → REAL) (csub : COMPLEX → COMPLEX → COMPLEX)
    (tol : REAL) :
    ∀ (n i k : Nat) (dist0 : REAL) (vals : List COMPLEX), 1 ≤ k → k ≤ i → i + n ≤ vals.length →
      (vals.take k).Pairwise (fun a b => REAL.lt (CABS (csub a b)) tol = false) →
      ∃ (k1 : Nat) (vals1 : List COMPLEX),
        misc_merge_loop CABS csub tol n i k dist0 vals = some (k1, vals1) ∧
        k ≤ k1 ∧ k1 ≤ k + n ∧ vals1.length = vals.length ∧ vals1.take k = vals.take k ∧
        (vals1.take k1).Pairwise (fun a b => REAL.lt (CABS (csub a b)) tol = false) := by
  intro n
  induction n with
  | zero =>
    intro i k dist0 vals _ _ _ hp
    exact ⟨k, vals, rfl, Nat.le_refl _, Nat.le_refl _, rfl, rfl, hp⟩
  | succ n ih =>
    intro i k dist0 vals hk1 hki hlen hp
    have hi : i < vals.length := by omega
    obtain ⟨d, hd, hclose⟩ :=
      misc_merge_inner_spec CABS csub tol vals i hi i 0 dist0 (by omega)
    simp only [misc_merge_loop, hd]
    by_cases hlt : REAL.lt d tol = true
    · obtain ⟨k1, vals1, h1, h2, h3, h4, h5, h6⟩ := ih (i + 1) k d vals hk1 (by omega) (by omega) hp
      exact ⟨k1, vals1, by simp [hlt, h1], h2, by omega, h4, h5, h6⟩
    · have hlt1 : REAL.lt d tol = false := by simpa using hlt
      have hp1 : ((vals.set k vals[i]).take (k + 1)).Pairwise
          (fun a b => REAL.lt (CABS (csub a b)) tol = false) := by
        rw [take_succ_set vals k vals[i] (by omega), List.pairwise_append]
        refine ⟨hp, List.pairwise_singleton _ _, fun a ha b hb => ?_⟩
        rw [List.mem_singleton] at hb
        subst hb
        obtain ⟨m, hm, rfl⟩ := List.getElem_of_mem ha
        rw [List.length_take] at hm
        rw [List.getElem_take]
        exact hclose hlt1 m _ (Nat.zero_le _) (by omega) (List.getElem?_eq_getElem (by omega))
      obtain ⟨k1, vals1, h1, h2, h3, h4, h5, h6⟩ := ih (i + 1) (k + 1) d (vals.set k vals[i])
        (by omega) (by omega) (by rw [List.length_set]; omega) hp1
      refine ⟨k1, vals1, by simp [hlt, List.getElem?_eq_getElem hi, h1], by omega, by omega,
        by rw [h4, List.length_set], ?_, h6⟩
      have := congrArg (List.take k) h5
      rw [List.take_take, List.take_take, Nat.min_eq_left (Nat.le_succ k), take_set_same] at this
      exact this

/-- A successful call of `misc_merge` on `N >= 1` values: the first value
stays, and no survivor is closer than `tol` to an earlier survivor. -/
theorem misc_merge_run (CABS : COMPLEX → REAL) (csub : COMPLEX → COMPLEX → COMPLEX)
    (N : Nat) (vals : List COMPLEX) (tol : REAL)
    (hN1 : 1 ≤ N) (hN : N ≤ vals.length) (htol : REAL.le (.fin 0) tol = true) :
    ∃ (N1 : Nat) (vals1 : List COMPLEX), misc_merge CABS csub (some N) (some vals) tol
        = some ⟨.SUCCESS, some N1, some vals1⟩ ∧
      1 ≤ N1 ∧ N1 ≤ N ∧ vals1.length = vals.length ∧ vals1[0]? = vals[0]? ∧
      (vals1.take N1).Pairwise (fun a b => REAL.lt (CABS (csub a b)) tol = false) := by
  obtain ⟨k1, vals1, h1, h2, h3, h4, h5, h6⟩ := misc_merge_loop_spec CABS csub tol (N - 1) 1 1
    (.fin (-1)) vals (Nat.le_refl 1) (Nat.le_refl 1) (by omega)
    (by
      rcases vals with _ | ⟨a, l⟩
      · simp
      · simp)
  refine ⟨k1, vals1, ?_, h2, by omega, h4, ?_, h6⟩
  · have e1 : ¬ N = 0 := by omega
    simp only [misc_merge, e1, if_false, REAL.not_lt_of_le _ _ htol, h1]
    rfl
  · have := congrArg (fun l => l[0]?) h5
    simpa using this

/-- C6 as stated fails on an array holding a NaN: for the two values (0,0)
and (NaN,0) and `tol = 1` the distance is NaN, the test `dist < tol` is
false, both values survive, and their distance is not `>= tol`. -/
theorem misc_merge_nan_distance :
    misc_merge CABS_real_axis csub_exact (some 2) (some [⟨.fin 0, .fin 0⟩, ⟨.nan, .fin 0⟩]) (.fin 1)
      = some ⟨.SUCCESS, some 2, some [⟨.fin 0, .fin 0⟩, ⟨.nan, .fin 0⟩]⟩ ∧
    REAL.ge (CABS_real_axis (csub_exact ⟨.fin 0, .fin 0⟩ ⟨.nan, .fin 0⟩)) (.fin 1) = false := by
  decide

/-- C6, amended. For a non-empty array and `tol >= 0`, `misc_merge` returns
SUCCESS, the first input value is still at index 0, and no survivor is closer
than `tol` to an earlier survivor: for `i < j < N1` the test
`|vals[i] - vals[j]| < tol` is false, hence `|vals[i] - vals[j]| >= tol`
whenever that distance is not NaN. -/
theorem misc_merge_no_close_pair (CABS : COMPLEX → REAL) (csub : COMPLEX → COMPLEX → COMPLEX)
    (N : Nat) (vals : List COMPLEX) (tol : REAL)
    (hN1 : 1 ≤ N) (hN : N ≤ vals.length) (htol : REAL.le (.fin 0) tol = true) :
    ∃ (N1 : Nat) (vals1 : List COMPLEX), misc_merge CABS csub (some N) (some vals) tol
        = some ⟨.SUCCESS, some N1, some vals1⟩ ∧
      1 ≤ N1 ∧ N1 ≤ N ∧ vals1[0]? = vals[0]? ∧
      (vals1.take N1).Pairwise (fun a b => REAL.lt (CABS (csub a b)) tol = false) ∧
      (vals1.take N1).Pairwise
        (fun a b => CABS (csub a b) ≠ .nan → REAL.ge (CABS (csub a b)) tol = true) := by
  obtain ⟨N1, vals1, h1, h2, h3, _, h5, h6⟩ := misc_merge_run CABS csub N vals tol hN1 hN htol
  refine ⟨N1, vals1, h1, h2, h3, h5, h6, h6.imp ?_⟩
  intro a b hab hnan
  exact REAL.le_of_not_lt _ _ hnan (REAL.le_ne_nan _ _ htol).2 hab

/-- Witness of C6 (amended): the values 0, 3, 6 on the real axis and
`tol = 5`; the call keeps the value 0 only. -/
theorem misc_merge_no_close_pair_witness :
    (∃ (N1 : Nat) (vals1 : List COMPLEX),
      misc_merge CABS_real_axis csub_exact (some 3)
          (some [⟨.fin 0, .fin 0⟩, ⟨.fin 3, .fin 0⟩, ⟨.fin 6, .fin 0⟩]) (.fin 5)
        = some ⟨.SUCCESS, some N1, some vals1⟩ ∧
      1 ≤ N1 ∧ N1 ≤ 3 ∧
      vals1[0]? = ([⟨.fin 0, .fin 0⟩, ⟨.fin 3, .fin 0⟩, ⟨.fin 6, .fin 0⟩] : List COMPLEX)[0]? ∧
      (vals1.take N1).Pairwise
        (fun a b => REAL.lt (CABS_real_axis (csub_exact a b)) (.fin 5) = false) ∧
      (vals1.take N1).Pairwise
        (fun a b => CABS_real_axis (csub_exact a b) ≠ .nan →
          REAL.ge (CABS_real_axis (csub_exact a b)) (.fin 5) = true)) :=
  misc_merge_no_close_pair CABS_real_axis csub_exact 3
    [⟨.fin 0, .fin 0⟩, ⟨.fin 3, .fin 0⟩, ⟨.fin 6, .fin 0⟩] (.fin 5) (by decide) (by decide)
    (by decide)

/-- C7, the code on the values 0, 3, 6 (on the real axis) with `tol = 5`:
`misc_merge` keeps the value 0 only, since 6 is compared with the entry 3
that was dropped before and still sits in the array, whereas the greedy
deduplication of the specification keeps 0 and 6, which are at distance 6.
With the far value 100 put between 3 and 6, the dropped 3 is overwritten
before 6 is examined, and the same call keeps 6. -/
theorem misc_merge_not_greedy :
    misc_merge CABS_real_axis csub_exact (some 3)
        (some [⟨.fin 0, .fin 0⟩, ⟨.fin 3, .fin 0⟩, ⟨.fin 6, .fin 0⟩]) (.fin 5)
      = some ⟨.SUCCESS, some 1, some [⟨.fin 0, .fin 0⟩, ⟨.fin 3, .fin 0⟩, ⟨.fin 6, .fin 0⟩]⟩ ∧
    greedy_merge CABS_real_axis csub_exact (.fin 5)
        [⟨.fin 0, .fin 0⟩, ⟨.fin 3, .fin 0⟩, ⟨.fin 6, .fin 0⟩]
      = [⟨.fin 0, .fin 0⟩, ⟨.fin 6, .fin 0⟩] ∧
    misc_merge CABS_real_axis csub_exact (some 4)
        (some [⟨.fin 0, .fin 0⟩, ⟨.fin 3, .fin 0⟩, ⟨.fin 100, .fin 0⟩, ⟨.fin 6, .fin 0⟩]) (.fin 5)
      = some ⟨.SUCCESS, some 3,
          some [⟨.fin 0, .fin 0⟩, ⟨.fin 100, .fin 0⟩, ⟨.fin 6, .fin 0⟩, ⟨.fin 6, .fin 0⟩]⟩ := by
  decide!

/-! ## misc_filter_inv against the box -/

/-- C8, the code on a boundary value: with the box re:[-2,2], im:[-2,2] the
value (2,0) survives `misc_filter_inv`, although it passes the inclusive box
test of `misc_filter` and is strictly outside on no axis. The header of
`fnft__misc_filter_inv` says that only values outside the box are kept, and
the header of `fnft__misc_filter` counts the boundary as inside. -/
theorem misc_filter_inv_keeps_boundary :
    misc_filter_inv (some 1) (some [⟨.fin 2, .fin 0⟩]) none
        (some ⟨.fin (-2), .fin 2, .fin (-2), .fin 2⟩)
      = some ⟨.SUCCESS, some 1, some [⟨.fin 2, .fin 0⟩], none⟩ ∧
    strictly_outside ⟨.fin (-2), .fin 2, .fin (-2), .fin 2⟩ ⟨.fin 2, .fin 0⟩ = false ∧
    in_box ⟨.fin (-2), .fin 2, .fin (-2), .fin 2⟩ ⟨.fin 2, .fin 0⟩ = true := by
  decide

theorem inv_keep_eq_not_inside (bb : BoundingBox) (v : COMPLEX) :
    inv_keep bb v = !strictly_inside bb v := by
  simp only [inv_keep, strictly_inside, Bool.not_and]

theorem inv_keep_finite (bb : BoundingBox) (v : COMPLEX)
    (hbox : REAL.le bb.b0 bb.b1 = true ∧ REAL.le bb.b2 bb.b3 = true)
    (hre : v.re.isFinite = true) (him : v.im.isFinite = true) (h : inv_keep bb v = true) :
    REAL.le v.re bb.b0 = true ∨ REAL.ge v.re bb.b1 = true ∨
      REAL.le v.im bb.b2 = true ∨ REAL.ge v.im bb.b3 = true := by
  obtain ⟨n0, n1⟩ := REAL.le_ne_nan _ _ hbox.1
  obtain ⟨n2, n3⟩ := REAL.le_ne_nan _ _ hbox.2
  have hr : v.re ≠ .nan := by intro e; rw [e] at hre; cases hre
  have hi : v.im ≠ .nan := by intro e; rw [e] at him; cases him
  simp only [inv_keep, Bool.or_eq_true, Bool.not_eq_true'] at h
  rcases h with ((h | h) | h) | h
  · exact Or.inl (REAL.le_of_not_lt _ _ n0 hr h)
  · exact Or.inr (Or.inl (REAL.le_of_not_lt _ _ hr n1 h))
  · exact Or.inr (Or.inr (Or.inl (REAL.le_of_not_lt _ _ n2 hi h)))
  · exact Or.inr (Or.inr (Or.inr (REAL.le_of_not_lt _ _ hi n3 h)))

/-- What the four tests of `misc_filter_inv` compute. For a valid box and
values with finite coordinates, the call returns SUCCESS and leaves the
values that are not strictly inside the box, in order: a surviving value has
`Re <= re_min` or `Re >= re_max` or `Im <= im_min` or `Im >= im_max`. -/
theorem misc_filter_inv_survivors (N : Nat) (vals : List COMPLEX)
    (rearrange_as_well : Option (List COMPLEX)) (bb : BoundingBox)
    (hbox : REAL.le bb.b0 bb.b1 = true ∧ REAL.le bb.b2 bb.b3 = true)
    (hN : N ≤ vals.length) (hr : ∀ r, rearrange_as_well = some r → N ≤ r.length)
    (hfin : ∀ v, v ∈ vals.take N → v.re.isFinite = true ∧ v.im.isFinite = true) :
    ∃ (N1 : Nat) (vals1 : List COMPLEX) (r1 : Option (List COMPLEX)),
      misc_filter_inv (some N) (some vals) rearrange_as_well (some bb)
        = some ⟨.SUCCESS, some N1, some vals1, r1⟩ ∧
      vals1.take N1 = (vals.take N).filter (fun v => !strictly_inside bb v) ∧
      ∀ v, v ∈ vals1.take N1 →
        strictly_inside bb v = false ∧
        (REAL.le v.re bb.b0 = true ∨ REAL.ge v.re bb.b1 = true ∨
          REAL.le v.im bb.b2 = true ∨ REAL.ge v.im bb.b3 = true) := by
  obtain ⟨l1, r1, h1, h2, _⟩ := packLoop2_run (inv_keep bb) N vals rearrange_as_well hN hr
  have hfun : inv_keep bb = fun v => !strictly_inside bb v :=
    funext (inv_keep_eq_not_inside bb)
  refine ⟨_, l1, r1, by rw [misc_filter_inv_eq N vals _ bb hbox, h1]; rfl, ?_, ?_⟩
  · rw [h2, hfun]
  · intro v hv
    rw [h2, List.mem_filter] at hv
    obtain ⟨hv1, hv2⟩ := hv
    refine ⟨?_, inv_keep_finite bb v hbox (hfin v hv1).1 (hfin v hv1).2 hv2⟩
    rw [inv_keep_eq_not_inside] at hv2
    simpa using hv2

/-- The values (0,0), (5,5), (2,0) and the box re:[-2,2], im:[-2,2]: the
boundary value (2,0) and the outside value (5,5) survive
`misc_filter_inv`. -/
theorem misc_filter_inv_survivors_witness :
    (∃ (N1 : Nat) (vals1 : List COMPLEX) (r1 : Option (List COMPLEX)),
      misc_filter_inv (some 3) (some [⟨.fin 0, .fin 0⟩, ⟨.fin 5, .fin 5⟩, ⟨.fin 2, .fin 0⟩]) none
          (some ⟨.fin (-2), .fin 2, .fin (-2), .fin 2⟩)
        = some ⟨.SUCCESS, some N1, some vals1, r1⟩ ∧
      vals1.take N1
        = (List.take 3 [⟨.fin 0, .fin 0⟩, ⟨.fin 5, .fin 5⟩, ⟨.fin 2, .fin 0⟩]).filter
            (fun v => !strictly_inside ⟨.fin (-2), .fin 2, .fin (-2), .fin 2⟩ v) ∧
      ∀ v, v ∈ vals1.take N1 →
        strictly_inside ⟨.fin (-2), .fin 2, .fin (-2), .fin 2⟩ v = false ∧
        (REAL.le v.re (.fin (-2)) = true ∨ REAL.ge v.re (.fin 2) = true ∨
          REAL.le v.im (.fin (-2)) = true ∨ REAL.ge v.im (.fin 2) = true)) ∧
    misc_filter_inv (some 3) (some [⟨.fin 0, .fin 0⟩, ⟨.fin 5, .fin 5⟩, ⟨.fin 2, .fin 0⟩]) none
        (some ⟨.fin (-2), .fin 2, .fin (-2), .fin 2⟩)
      = some ⟨.SUCCESS, some 2, some [⟨.fin 5, .fin 5⟩, ⟨.fin 2, .fin 0⟩, ⟨.fin 2, .fin 0⟩], none⟩ :=
  ⟨misc_filter_inv_survivors 3 [⟨.fin 0, .fin 0⟩, ⟨.fin 5, .fin 5⟩, ⟨.fin 2, .fin 0⟩] none
      ⟨.fin (-2), .fin 2, .fin (-2), .fin 2⟩ (by decide) (by decide) (fun r h => by cases h)
      (by decide),
    by decide⟩

/-! ## Complementarity and idempotence -/

theorem misc_filter_single (bb : BoundingBox) (v : COMPLEX)
    (hbox : REAL.le bb.b0 bb.b1 = true ∧ REAL.le bb.b2 bb.b3 = true) :
    misc_filter (some 1) (some [v]) none (some bb)
      = some ⟨.SUCCESS, some (if in_box bb v then 1 else 0), some [v], none⟩ := by
  rw [misc_filter_eq 1 [v] none bb hbox]
  by_cases h : in_box bb v = true <;> simp [packLoop2, h]

theorem misc_filter_inv_single (bb : BoundingBox) (v : COMPLEX)
    (hbox : REAL.le bb.b0 bb.b1 = true ∧ REAL.le bb.b2 bb.b3 = true) :
    misc_filter_inv (some 1) (some [v]) none (some bb)
      = some ⟨.SUCCESS, some (if inv_keep bb v then 1 else 0), some [v], none⟩ := by
  rw [misc_filter_inv_eq 1 [v] none bb hbox]
  by_cases h : inv_keep bb v = true <;> simp [packLoop2, h]

theorem inv_keep_eq_not_in_box (bb : BoundingBox) (v : COMPLEX)
    (h0 : v.re ≠ bb.b0) (h1 : v.re ≠ bb.b1) (h2 : v.im ≠ bb.b2) (h3 : v.im ≠ bb.b3) :
    inv_keep bb v = !in_box bb v := by
  simp only [inv_keep, in_box, REAL.lt_eq_le_of_ne _ _ (Ne.symm h0), REAL.lt_eq_le_of_ne _ _ h1,
    REAL.lt_eq_le_of_ne _ _ (Ne.symm h2), REAL.lt_eq_le_of_ne _ _ h3, Bool.not_and]

/-- C9. For a valid box and a value `v` none of whose coordinates equals a
bound of its axis (`Re(v)` differs from `re_min` and `re_max`, `Im(v)` from
`im_min` and `im_max`), exactly one of `misc_filter` and `misc_filter_inv`
keeps `v` when run on the one-element array `[v]`: one call leaves `N = 1`
and the other `N = 0`. It holds in particular for every `v` with finite
coordinates. -/
theorem filter_complementarity (bb : BoundingBox) (v : COMPLEX)
    (hbox : REAL.le bb.b0 bb.b1 = true ∧ REAL.le bb.b2 bb.b3 = true)
    (h0 : v.re ≠ bb.b0) (h1 : v.re ≠ bb.b1) (h2 : v.im ≠ bb.b2) (h3 : v.im ≠ bb.b3) :
    (misc_filter (some 1) (some [v]) none (some bb) = some ⟨.SUCCESS, some 1, some [v], none⟩ ∧
      misc_filter_inv (some 1) (some [v]) none (some bb)
        = some ⟨.SUCCESS, some 0, some [v], none⟩) ∨
    (misc_filter (some 1) (some [v]) none (some bb) = some ⟨.SUCCESS, some 0, some [v], none⟩ ∧
      misc_filter_inv (some 1) (some [v]) none (some bb)
        = some ⟨.SUCCESS, some 1, some [v], none⟩) := by
  rw [misc_filter_single bb v hbox, misc_filter_inv_single bb v hbox,
    inv_keep_eq_not_in_box bb v h0 h1 h2 h3]
  by_cases h : in_box bb v = true
  · left; simp [h]
  · right; simp [h]

/-- Witness of C9: the box re:[-2,2], im:[-2,2] and the outside value (5,5). -/
theorem filter_complementarity_witness :
    ((misc_filter (some 1) (some [⟨.fin 5, .fin 5⟩]) none
          (some ⟨.fin (-2), .fin 2, .fin (-2), .fin 2⟩)
        = some ⟨.SUCCESS, some 1, some [⟨.fin 5, .fin 5⟩], none⟩ ∧
      misc_filter_inv (some 1) (some [⟨.fin 5, .fin 5⟩]) none
          (some ⟨.fin (-2), .fin 2, .fin (-2), .fin 2⟩)
        = some ⟨.SUCCESS, some 0, some [⟨.fin 5, .fin 5⟩], none⟩) ∨
    (misc_filter (some 1) (some [⟨.fin 5, .fin 5⟩]) none
          (some ⟨.fin (-2), .fin 2, .fin (-2), .fin 2⟩)
        = some ⟨.SUCCESS, some 0, some [⟨.fin 5, .fin 5⟩], none⟩ ∧
      misc_filter_inv (some 1) (some [⟨.fin 5, .fin 5⟩]) none
          (some ⟨.fin (-2), .fin 2, .fin (-2), .fin 2⟩)
        = some ⟨.SUCCESS, some 1, some [⟨.fin 5, .fin 5⟩], none⟩)) ∧
    REAL.isFinite (.fin 5) = true :=
  ⟨filter_complementarity ⟨.fin (-2), .fin 2, .fin (-2), .fin 2⟩ ⟨.fin 5, .fin 5⟩ (by decide)
      (by decide) (by decide) (by decide) (by decide),
    rfl⟩

theorem set_getElem_same {α : Type} (l : List α) (i : Nat) (h : i < l.length) :
    l.set i l[i] = l := by
  induction l generalizing i with
  | nil => rfl
  | cons b l ih =>
    cases i with
    | zero => rfl
    | succ i => simp [ih i (by simpa using h)]

theorem packLoop2_all {α β : Type} (p : α → Bool) :
    ∀ (n i : Nat) (l : List α) (r : Option (List β)),
      (∀ j a, i ≤ j → j < i + n → l[j]? = some a → p a = true) → i + n ≤ l.length →
      (∀ r0, r = some r0 → i + n ≤ r0.length) →
      packLoop2 p n i i l r = some (i + n, l, r) := by
  intro n
  induction n with
  | zero => intro i l r _ _ _; rfl
  | succ n ih =>
    intro i l r hp hl hr
    have hi : i < l.length := by omega
    have hpi : p l[i] = true := hp i _ (Nat.le_refl _) (by omega) (List.getElem?_eq_getElem hi)
    rcases r with _ | r0
    · simp only [packLoop2, List.getElem?_eq_getElem hi, hpi, if_true, set_getElem_same l i hi]
      rw [ih (i + 1) l none (fun j a h1 h2 => hp j a (by omega) (by omega)) (by omega)
        (fun r0 h => by cases h)]
      congr 2
      omega
    · have hj : i < r0.length := by have := hr r0 rfl; omega
      simp only [packLoop2, List.getElem?_eq_getElem hi, hpi, if_true,
        List.getElem?_eq_getElem hj, set_getElem_same l i hi, set_getElem_same r0 i hj]
      rw [ih (i + 1) l (some r0) (fun j a h1 h2 => hp j a (by omega) (by omega)) (by omega)
        (fun r1 h => by cases h; have := hr r0 rfl; omega)]
      congr 2
      omega

/-- C10. `misc_filter` is idempotent: on a valid input the call returns
SUCCESS with some `N1`, `vals1` and companion `r1`, and a second call with
the same box on that result returns SUCCESS and leaves `N1`, `vals1` and `r1`
as they are; the logical length, the surviving values, their order and the
companion are unchanged. -/
theorem misc_filter_idempotent (N : Nat) (vals : List COMPLEX)
    (rearrange_as_well : Option (List COMPLEX)) (bb : BoundingBox)
    (hbox : REAL.le bb.b0 bb.b1 = true ∧ REAL.le bb.b2 bb.b3 = true)
    (hN : N ≤ vals.length) (hr : ∀ r, rearrange_as_well = some r → N ≤ r.length) :
    ∃ (N1 : Nat) (vals1 : List COMPLEX) (r1 : Option (List COMPLEX)),
      misc_filter (some N) (some vals) rearrange_as_well (some bb)
        = some ⟨.SUCCESS, some N1, some vals1, r1⟩ ∧
      misc_filter (some N1) (some vals1) r1 (some bb)
        = some ⟨.SUCCESS, some N1, some vals1, r1⟩ := by
  obtain ⟨l1, r1, h1, h2, h3, h4, h5⟩ :=
    packLoop2_run (in_box bb) N vals rearrange_as_well hN hr
  have hc := filter_take_length_le (in_box bb) N vals
  refine ⟨_, l1, r1, by rw [misc_filter_eq N vals _ bb hbox, h1]; rfl, ?_⟩
  rw [misc_filter_eq _ l1 r1 bb hbox]
  have := packLoop2_all (in_box bb) ((vals.take N).filter (in_box bb)).length 0 l1 r1
    (fun j a _ hj hja => by
      have hmem : a ∈ l1.take ((vals.take N).filter (in_box bb)).length := by
        rw [List.mem_iff_getElem?]
        exact ⟨j, by rw [List.getElem?_take_of_lt (by omega)]; exact hja⟩
      rw [h2] at hmem
      exact (List.mem_filter.mp hmem).2)
    (by omega)
    (fun r0 h => by
      rcases rearrange_as_well with _ | r
      · rw [h4 rfl] at h; cases h
      · obtain ⟨r2, e, hlen, _⟩ := h5 r rfl
        rw [e] at h
        cases h
        have := hr r rfl
        omega)
  simp only [Nat.zero_add] at this
  rw [this]
  rfl

/-- Witness of C10: the scenario of the specification with a companion. -/
theorem misc_filter_idempotent_witness :
    (∃ (N1 : Nat) (vals1 : List COMPLEX) (r1 : Option (List COMPLEX)),
      misc_filter (some 3) (some [⟨.fin 0, .fin 0⟩, ⟨.fin 5, .fin 5⟩, ⟨.fin (-1), .fin (-1)⟩])
          (some [⟨.fin 7, .fin 0⟩, ⟨.fin 8, .fin 0⟩, ⟨.fin 9, .fin 0⟩])
          (some ⟨.fin (-2), .fin 2, .fin (-2), .fin 2⟩)
        = some ⟨.SUCCESS, some N1, some vals1, r1⟩ ∧
      misc_filter (some N1) (some vals1) r1 (some ⟨.fin (-2), .fin 2, .fin (-2), .fin 2⟩)
        = some ⟨.SUCCESS, some N1, some vals1, r1⟩) ∧
    misc_filter (some 2)
        (some [⟨.fin 0, .fin 0⟩, ⟨.fin (-1), .fin (-1)⟩, ⟨.fin (-1), .fin (-1)⟩])
        (some [⟨.fin 7, .fin 0⟩, ⟨.fin 9, .fin 0⟩, ⟨.fin 9, .fin 0⟩])
        (some ⟨.fin (-2), .fin 2, .fin (-2), .fin 2⟩)
      = some ⟨.SUCCESS, some 2,
          some [⟨.fin 0, .fin 0⟩, ⟨.fin (-1), .fin (-1)⟩, ⟨.fin (-1), .fin (-1)⟩],
          some [⟨.fin 7, .fin 0⟩, ⟨.fin 9, .fin 0⟩, ⟨.fin 9, .fin 0⟩]⟩ :=
  ⟨misc_filter_idempotent 3 [⟨.fin 0, .fin 0⟩, ⟨.fin 5, .fin 5⟩, ⟨.fin (-1), .fin (-1)⟩]
      (some [⟨.fin 7, .fin 0⟩, ⟨.fin 8, .fin 0⟩, ⟨.fin 9, .fin 0⟩])
      ⟨.fin (-2), .fin 2, .fin (-2), .fin 2⟩ (by decide) (by decide)
      (fun r h => by cases h; decide),
    by decide⟩

/-! ## misc_filter_nonreal: what is kept, and the argument checks -/

theorem REAL.not_le_of_lt (a b : REAL) (h : REAL.lt a b = true) : REAL.le b a = false := by
  cases a <;> cases b <;> simp_all [REAL.lt, REAL.le]

/-- C11. For `tol_im >= 0`, `misc_filter_nonreal` returns SUCCESS and leaves in
`vals[0..N1-1]` exactly the input values with `|Im| > tol_im` (strictly), in
their original order, `N1` being their number. For `tol_im < 0` it returns
the invalid-argument code and leaves `*N_ptr` and `vals` as they were. -/
theorem misc_filter_nonreal_keeps (N : Nat) (vals : List COMPLEX) (tol_im : REAL)
    (hN : N ≤ vals.length) :
    (REAL.ge tol_im (.fin 0) = true →
      ∃ vals1, misc_filter_nonreal (some N) (some vals) tol_im
          = some ⟨.SUCCESS,
              some ((vals.take N).filter (fun v => REAL.gt (FABS (CIMAG v)) tol_im)).length,
              some vals1⟩ ∧
        vals1.take ((vals.take N).filter (fun v => REAL.gt (FABS (CIMAG v)) tol_im)).length
          = (vals.take N).filter (fun v => REAL.gt (FABS (CIMAG v)) tol_im)) ∧
    (REAL.lt tol_im (.fin 0) = true →
      misc_filter_nonreal (some N) (some vals) tol_im
        = some ⟨.E_INVALID_ARGUMENT, some N, some vals⟩) := by
  refine ⟨fun htol => ?_, fun htol => ?_⟩
  · obtain ⟨l1, h1, h2, _⟩ := packLoop_spec (nonreal_keep tol_im) N 0 0 vals (Nat.le_refl 0)
      (by omega)
    simp only [List.drop_zero, Nat.zero_add, List.take_zero, List.nil_append] at h1 h2
    exact ⟨l1, by rw [misc_filter_nonreal_eq N vals tol_im htol, h1]; rfl, h2⟩
  · simp only [misc_filter_nonreal, REAL.ge, REAL.not_le_of_lt _ _ htol]
    rfl

/-- Witness of C11: the values (5,0), (0,1), (0,-2) with the tolerance 1;
only (0,-2) has `|Im| > 1`. -/
theorem misc_filter_nonreal_keeps_witness :
    ((REAL.ge (.fin 1) (.fin 0) = true →
      ∃ vals1, misc_filter_nonreal (some 3)
            (some [⟨.fin 5, .fin 0⟩, ⟨.fin 0, .fin 1⟩, ⟨.fin 0, .fin (-2)⟩]) (.fin 1)
          = some ⟨.SUCCESS,
              some ((List.take 3 [⟨.fin 5, .fin 0⟩, ⟨.fin 0, .fin 1⟩, ⟨.fin 0, .fin (-2)⟩]).filter
                (fun v => REAL.gt (FABS (CIMAG v)) (.fin 1))).length,
              some vals1⟩ ∧
        vals1.take ((List.take 3 [⟨.fin 5, .fin 0⟩, ⟨.fin 0, .fin 1⟩, ⟨.fin 0, .fin (-2)⟩]).filter
              (fun v => REAL.gt (FABS (CIMAG v)) (.fin 1))).length
          = (List.take 3 [⟨.fin 5, .fin 0⟩, ⟨.fin 0, .fin 1⟩, ⟨.fin 0, .fin (-2)⟩]).filter
              (fun v => REAL.gt (FABS (CIMAG v)) (.fin 1))) ∧
    (REAL.lt (.fin 1) (.fin 0) = true →
      misc_filter_nonreal (some 3)
          (some [⟨.fin 5, .fin 0⟩, ⟨.fin 0, .fin 1⟩, ⟨.fin 0, .fin (-2)⟩]) (.fin 1)
        = some ⟨.E_INVALID_ARGUMENT, some 3,
            some [⟨.fin 5, .fin 0⟩, ⟨.fin 0, .fin 1⟩, ⟨.fin 0, .fin (-2)⟩]⟩)) ∧
    misc_filter_nonreal (some 3)
        (some [⟨.fin 5, .fin 0⟩, ⟨.fin 0, .fin 1⟩, ⟨.fin 0, .fin (-2)⟩]) (.fin 1)
      = some ⟨.SUCCESS, some 1,
          some [⟨.fin 0, .fin (-2)⟩, ⟨.fin 0, .fin 1⟩, ⟨.fin 0, .fin (-2)⟩]⟩ ∧
    misc_filter_nonreal (some 3)
        (some [⟨.fin 5, .fin 0⟩, ⟨.fin 0, .fin 1⟩, ⟨.fin 0, .fin (-2)⟩]) (.fin (-1))
      = some ⟨.E_INVALID_ARGUMENT, some 3,
          some [⟨.fin 5, .fin 0⟩, ⟨.fin 0, .fin 1⟩, ⟨.fin 0, .fin (-2)⟩]⟩ :=
  ⟨misc_filter_nonreal_keeps 3 [⟨.fin 5, .fin 0⟩, ⟨.fin 0, .fin 1⟩, ⟨.fin 0, .fin (-2)⟩] (.fin 1)
      (by decide),
    by decide, by decide⟩

/-- C12, the code on the values (5,0) and (0,1) with `tol_im = 0`: the call
returns SUCCESS with `N = 1` and the survivor (0,1), whose `|Im| = 1` exceeds
`tol_im`, while the real value (5,0) is removed. The header says the entries
with `|Im| > tol_im` are the ones removed. -/
theorem misc_filter_nonreal_keeps_nonreal :
    misc_filter_nonreal (some 2) (some [⟨.fin 5, .fin 0⟩, ⟨.fin 0, .fin 1⟩]) (.fin 0)
      = some ⟨.SUCCESS, some 1, some [⟨.fin 0, .fin 1⟩, ⟨.fin 0, .fin 1⟩]⟩ ∧
    REAL.gt (FABS (CIMAG ⟨.fin 0, .fin 1⟩)) (.fin 0) = true := by
  decide

/-! ## Argument checks of the box filters and of misc_merge -/

/-- C13. With a malformed box (`re_min <= re_max` or `im_min <= im_max`
fails, as it does for a NaN bound), `misc_filter` and `misc_filter_inv`
return the invalid-argument code and leave `*N_ptr`, `vals` and the companion
as they were. With a well-formed box both return SUCCESS for every length
`N` of the array, whatever number of values survives. -/
theorem box_filters_validate (N_ptr : Option UINT) (vals : Option (List COMPLEX))
    (rearrange_as_well : Option (List COMPLEX)) (bb : BoundingBox) :
    ((REAL.le bb.b0 bb.b1 = false ∨ REAL.le bb.b2 bb.b3 = false) →
      misc_filter N_ptr vals rearrange_as_well (some bb)
        = some ⟨.E_INVALID_ARGUMENT, N_ptr, vals, rearrange_as_well⟩ ∧
      misc_filter_inv N_ptr vals rearrange_as_well (some bb)
        = some ⟨.E_INVALID_ARGUMENT, N_ptr, vals, rearrange_as_well⟩) ∧
    ((REAL.le bb.b0 bb.b1 = true ∧ REAL.le bb.b2 bb.b3 = true) →
      ∀ (N : Nat) (v : List COMPLEX), N_ptr = some N → vals = some v → N ≤ v.length →
        (∀ r, rearrange_as_well = some r → N ≤ r.length) →
        (∃ (N1 : Nat) (v1 : List COMPLEX) (r1 : Option (List COMPLEX)),
          misc_filter N_ptr vals rearrange_as_well (some bb)
            = some ⟨.SUCCESS, some N1, some v1, r1⟩) ∧
        (∃ (N1 : Nat) (v1 : List COMPLEX) (r1 : Option (List COMPLEX)),
          misc_filter_inv N_ptr vals rearrange_as_well (some bb)
            = some ⟨.SUCCESS, some N1, some v1, r1⟩)) := by
  refine ⟨fun hbad => ?_, fun hbox N v hN hv hlen hr => ?_⟩
  · have hc : (!(REAL.le bb.b0 bb.b1) || !(REAL.le bb.b2 bb.b3)) = true := by
      rcases hbad with h | h <;> simp [h]
    constructor
    · rcases N_ptr with _ | N <;> rcases vals with _ | v <;> simp [misc_filter, hc]
    · rcases N_ptr with _ | N <;> rcases vals with _ | v <;> simp [misc_filter_inv, hc]
  · subst hN hv
    obtain ⟨l1, r1, h1, _⟩ := packLoop2_run (in_box bb) N v rearrange_as_well hlen hr
    obtain ⟨l2, r2, h2, _⟩ := packLoop2_run (inv_keep bb) N v rearrange_as_well hlen hr
    exact ⟨⟨_, l1, r1, by rw [misc_filter_eq N v _ bb hbox, h1]; rfl⟩,
      ⟨_, l2, r2, by rw [misc_filter_inv_eq N v _ bb hbox, h2]; rfl⟩⟩

/-- Witness of C13: an inverted box and a box with a NaN bound are refused
with nothing changed; with the box re:[-2,2], im:[-2,2] the call succeeds on
values none of which survives, and on the empty array. -/
theorem box_filters_validate_witness :
    (((REAL.le (.fin 2) (.fin (-2)) = false ∨ REAL.le (.fin (-2)) (.fin 2) = false) →
      misc_filter (some 2) (some [⟨.fin 5, .fin 5⟩, ⟨.fin 0, .fin 0⟩]) none
          (some ⟨.fin 2, .fin (-2), .fin (-2), .fin 2⟩)
        = some ⟨.E_INVALID_ARGUMENT, some 2, some [⟨.fin 5, .fin 5⟩, ⟨.fin 0, .fin 0⟩], none⟩ ∧
      misc_filter_inv (some 2) (some [⟨.fin 5, .fin 5⟩, ⟨.fin 0, .fin 0⟩]) none
          (some ⟨.fin 2, .fin (-2), .fin (-2), .fin 2⟩)
        = some ⟨.E_INVALID_ARGUMENT, some 2, some [⟨.fin 5, .fin 5⟩, ⟨.fin 0, .fin 0⟩], none⟩) ∧
    ((REAL.le (.fin 2) (.fin (-2)) = true ∧ REAL.le (.fin (-2)) (.fin 2) = true) →
      ∀ (N : Nat) (v : List COMPLEX), some 2 = some N →
        some [(⟨.fin 5, .fin 5⟩ : COMPLEX), ⟨.fin 0, .fin 0⟩] = some v → N ≤ v.length →
        (∀ r, (none : Option (List COMPLEX)) = some r → N ≤ r.length) →
        (∃ (N1 : Nat) (v1 : List COMPLEX) (r1 : Option (List COMPLEX)),
          misc_filter (some 2) (some [⟨.fin 5, .fin 5⟩, ⟨.fin 0, .fin 0⟩]) none
              (some ⟨.fin 2, .fin (-2), .fin (-2), .fin 2⟩)
            = some ⟨.SUCCESS, some N1, some v1, r1⟩) ∧
        (∃ (N1 : Nat) (v1 : List COMPLEX) (r1 : Option (List COMPLEX)),
          misc_filter_inv (some 2) (some [⟨.fin 5, .fin 5⟩, ⟨.fin 0, .fin 0⟩]) none
              (some ⟨.fin 2, .fin (-2), .fin (-2), .fin 2⟩)
            = some ⟨.SUCCESS, some N1, some v1, r1⟩))) ∧
    misc_filter (some 1) (some [⟨.fin 0, .fin 0⟩]) (some [⟨.fin 7, .fin 0⟩])
        (some ⟨.nan, .fin 2, .fin (-2), .fin 2⟩)
      = some ⟨.E_INVALID_ARGUMENT, some 1, some [⟨.fin 0, .fin 0⟩], some [⟨.fin 7, .fin 0⟩]⟩ ∧
    misc_filter (some 2) (some [⟨.fin 5, .fin 5⟩, ⟨.fin 7, .fin 7⟩]) none
        (some ⟨.fin (-2), .fin 2, .fin (-2), .fin 2⟩)
      = some ⟨.SUCCESS, some 0, some [⟨.fin 5, .fin 5⟩, ⟨.fin 7, .fin 7⟩], none⟩ ∧
    misc_filter_inv (some 1) (some [⟨.fin 0, .fin 0⟩]) none
        (some ⟨.fin (-2), .fin 2, .fin (-2), .fin 2⟩)
      = some ⟨.SUCCESS, some 0, some [⟨.fin 0, .fin 0⟩], none⟩ ∧
    misc_filter (some 0) (some []) none (some ⟨.fin (-2), .fin 2, .fin (-2), .fin 2⟩)
      = some ⟨.SUCCESS, some 0, some [], none⟩ :=
  ⟨box_filters_validate (some 2) (some [⟨.fin 5, .fin 5⟩, ⟨.fin 0, .fin 0⟩]) none
      ⟨.fin 2, .fin (-2), .fin (-2), .fin 2⟩,
    by decide, by decide, by decide, by decide⟩

/-- C14 as stated fails for the length 0: `misc_merge` returns SUCCESS as soon
as `*N_ptr == 0`, before it looks at `tol`, so a negative tolerance is not
refused there. -/
theorem misc_merge_zero_length_negative_tol :
    misc_merge CABS_real_axis csub_exact (some 0) (some []) (.fin (-1))
      = some ⟨.SUCCESS, some 0, some []⟩ ∧
    REAL.lt (.fin (-1)) (.fin 0) = true := by
  decide

/-- C14, amended. For every array and every length `*N_ptr >= 1`, a call of
`misc_merge` with `tol < 0` returns the invalid-argument code and leaves
`*N_ptr` and `vals` as they were; for the length 0 the call returns SUCCESS,
whatever `tol` is, and leaves them as they were. -/
theorem misc_merge_validates_tol (CABS : COMPLEX → REAL) (csub : COMPLEX → COMPLEX → COMPLEX)
    (N : Nat) (vals : Option (List COMPLEX)) (tol : REAL) :
    (1 ≤ N → REAL.lt tol (.fin 0) = true →
      misc_merge CABS csub (some N) vals tol = some ⟨.E_INVALID_ARGUMENT, some N, vals⟩) ∧
    misc_merge CABS csub (some 0) vals tol = some ⟨.SUCCESS, some 0, vals⟩ := by
  refine ⟨fun hN htol => ?_, ?_⟩
  · have e : ¬ N = 0 := by omega
    rcases vals with _ | v <;> simp [misc_merge, e, htol]
  · simp [misc_merge]

/-- Witness of C14 (amended): two values and the tolerance -1. -/
theorem misc_merge_validates_tol_witness :
    misc_merge CABS_real_axis csub_exact (some 2)
        (some [⟨.fin 0, .fin 0⟩, ⟨.fin 3, .fin 0⟩]) (.fin (-1))
      = some ⟨.E_INVALID_ARGUMENT, some 2, some [⟨.fin 0, .fin 0⟩, ⟨.fin 3, .fin 0⟩]⟩ :=
  (misc_merge_validates_tol CABS_real_axis csub_exact 2
    (some [⟨.fin 0, .fin 0⟩, ⟨.fin 3, .fin 0⟩]) (.fin (-1))).1 (by decide) (by decide)

/-! ## misc_nextpowerof2 -/

theorem misc_nextpowerof2_loop_spec (w n : Nat) (hn : n ≤ 2 ^ (w - 1)) (hw : 1 ≤ w) :
    ∀ (fuel k : Nat), k ≤ w - 1 → w - 1 - k ≤ fuel → (k = 0 ∨ 2 ^ (k - 1) < n) →
      ∃ d, misc_nextpowerof2_loop w n fuel (2 ^ k) = some (2 ^ d) ∧ n ≤ 2 ^ d ∧
        (d = 0 ∨ 2 ^ (d - 1) < n) := by
  intro fuel
  induction fuel with
  | zero =>
    intro k hk hf hprev
    have hk1 : k = w - 1 := by omega
    subst hk1
    exact ⟨w - 1, by simp [misc_nextpowerof2_loop, Nat.not_lt.mpr hn], hn, hprev⟩
  | succ fuel ih =>
    intro k hk hf hprev
    by_cases hlt : 2 ^ k < n
    · have hkw : k < w - 1 := by
        rcases Nat.lt_or_ge k (w - 1) with h | h
        · exact h
        · have : 2 ^ (w - 1) ≤ 2 ^ k := Nat.pow_le_pow_right (by decide) h
          omega
      have hwrap : (2 ^ k * 2) % 2 ^ w = 2 ^ (k + 1) := by
        rw [← Nat.pow_succ]
        exact Nat.mod_eq_of_lt (Nat.pow_lt_pow_right (by decide) (by omega))
      obtain ⟨d, h1, h2, h3⟩ := ih (k + 1) (by omega) (by omega)
        (Or.inr (by simpa using hlt))
      exact ⟨d, by simp only [misc_nextpowerof2_loop, hlt, if_true, hwrap, h1], h2, h3⟩
    · exact ⟨k, by simp [misc_nextpowerof2_loop, hlt], by omega, hprev⟩

/-- C18. `misc_nextpowerof2(0) = 0`, and for `1 <= n <= 2^(w-1)` on a `w`-bit
`FNFT_UINT` the loop ends (within `w` iterations) with the smallest power of
two that is `>= n`: the result is `2^d` with `n <= 2^d < 2n`, and every
power of two `>= n` is `>= 2^d`. -/
theorem misc_nextpowerof2_smallest (w fuel n : Nat) (hw : 1 ≤ w) (hfuel : w ≤ fuel)
    (hn1 : 1 ≤ n) (hn : n ≤ 2 ^ (w - 1)) :
    misc_nextpowerof2 w fuel 0 = some 0 ∧
    ∃ d, misc_nextpowerof2 w fuel n = some (2 ^ d) ∧ n ≤ 2 ^ d ∧ 2 ^ d < 2 * n ∧
      ∀ e, n ≤ 2 ^ e → 2 ^ d ≤ 2 ^ e := by
  refine ⟨by simp [misc_nextpowerof2], ?_⟩
  have h1w : 1 % 2 ^ w = 2 ^ 0 := by
    rw [Nat.pow_zero]
    exact Nat.mod_eq_of_lt (Nat.one_lt_two_pow (by omega))
  obtain ⟨d, h1, h2, h3⟩ :=
    misc_nextpowerof2_loop_spec w n hn hw fuel 0 (by omega) (by omega) (Or.inl rfl)
  have hlt : 2 ^ d < 2 * n := by
    rcases h3 with h3 | h3
    · subst h3; simp; omega
    · have : 2 ^ d = 2 * 2 ^ (d - 1) := by
        rw [← Nat.pow_succ']
        congr 1
        rcases d with _ | d
        · simp at h3; omega
        · rfl
      omega
  refine ⟨d, ?_, h2, hlt, fun e he => ?_⟩
  · have e0 : ¬ n = 0 := by omega
    simp only [misc_nextpowerof2, e0, if_false, h1w, h1]
  · rcases Nat.lt_or_ge e d with h | h
    · have : 2 ^ (e + 1) ≤ 2 ^ d := Nat.pow_le_pow_right (by decide) h
      rw [Nat.pow_succ] at this
      omega
    · exact Nat.pow_le_pow_right (by decide) h

/-- Witness of C18: a 64-bit `FNFT_UINT`; 0 gives 0, 1 gives 1 and 5 gives 8. -/
theorem misc_nextpowerof2_smallest_witness :
    (misc_nextpowerof2 64 64 0 = some 0 ∧
      ∃ d, misc_nextpowerof2 64 64 5 = some (2 ^ d) ∧ 5 ≤ 2 ^ d ∧ 2 ^ d < 2 * 5 ∧
        ∀ e, 5 ≤ 2 ^ e → 2 ^ d ≤ 2 ^ e) ∧
    misc_nextpowerof2 64 64 0 = some 0 ∧ misc_nextpowerof2 64 64 1 = some 1 ∧
    misc_nextpowerof2 64 64 5 = some 8 :=
  ⟨misc_nextpowerof2_smallest 64 64 5 (by decide) (by decide) (by decide) (by decide),
    by decide, by decide, by decide⟩

/-! ## misc_merge with the extreme tolerances -/

theorem CABS_real_axis_not_neg (z : COMPLEX) : REAL.lt (CABS_real_axis z) (.fin 0) = false := by
  rcases z with ⟨re, im⟩
  cases re <;> simp [CABS_real_axis, FABS, REAL.lt]

theorem CABS_real_axis_finite (a b : COMPLEX) (ha : a.re.isFinite = true)
    (hb : b.re.isFinite = true) : (CABS_real_axis (csub_exact a b)).isFinite = true := by
  rcases a with ⟨ar, ai⟩
  rcases b with ⟨br, bi⟩
  cases ar <;> cases br <;> simp_all [CABS_real_axis, csub_exact, REAL.sub, FABS, REAL.isFinite]

theorem REAL.fmax_comm (a b : REAL) : REAL.fmax a b = REAL.fmax b a := by
  cases a <;> cases b <;> simp [REAL.fmax, max_comm]

theorem REAL.fmax_assoc (a b c : REAL) :
    REAL.fmax (REAL.fmax a b) c = REAL.fmax a (REAL.fmax b c) := by
  cases a <;> cases b <;> cases c <;> simp [REAL.fmax, max_assoc]

theorem REAL.fmax_ne_nan (a b : REAL) (ha : a ≠ .nan) : REAL.fmax a b ≠ .nan := by
  cases a <;> cases b <;> simp_all [REAL.fmax]

theorem REAL.fmin_ne_nan (a b : REAL) (ha : a ≠ .nan) : REAL.fmin a b ≠ .nan := by
  cases a <;> cases b <;> simp_all [REAL.fmin]

theorem REAL.fmax_ninf_left (a : REAL) (ha : a ≠ .nan) : REAL.fmax .ninf a = a := by
  cases a <;> simp_all [REAL.fmax]

theorem REAL.fmax_ninf_right (a : REAL) (ha : a ≠ .nan) : REAL.fmax a .ninf = a := by
  cases a <;> simp_all [REAL.fmax]

theorem REAL.min_step (d tmp : REAL) (hd : d ≠ .nan) :
    (if REAL.lt tmp d = true then tmp else d) = REAL.fmin d tmp := by
  cases d <;> cases tmp <;> simp_all [REAL.fmin, REAL.lt]
  rename_i x y
  by_cases h : y < x
  · simp [h, min_eq_right (le_of_lt h)]
  · simp [h, min_eq_left (not_lt.mp h)]

theorem REAL.max_step (m d : REAL) (hm : m ≠ .nan) (hd : d ≠ .nan) :
    (if REAL.gt d m = true then d else m) = REAL.fmax m d := by
  cases m <;> cases d <;> simp_all [REAL.fmax, REAL.gt, REAL.lt]
  rename_i x y
  by_cases h : x < y
  · simp [h, max_eq_right (le_of_lt h)]
  · simp [h, max_eq_left (not_lt.mp h)]

theorem foldl_fmin_ne_nan (L : List REAL) : ∀ d, d ≠ .nan → L.foldl REAL.fmin d ≠ .nan := by
  induction L with
  | nil => intro d hd; exact hd
  | cons x L ih => intro d hd; exact ih _ (REAL.fmin_ne_nan d x hd)

theorem foldl_fmax_ne_nan (L : List REAL) : ∀ d, d ≠ .nan → L.foldl REAL.fmax d ≠ .nan := by
  induction L with
  | nil => intro d hd; exact hd
  | cons x L ih => intro d hd; exact ih _ (REAL.fmax_ne_nan d x hd)

theorem foldl_fmax_init (L : List REAL) (hL : ∀ x, x ∈ L → x ≠ .nan) :
    ∀ m, m ≠ .nan → L.foldl REAL.fmax m = REAL.fmax m (L.foldl REAL.fmax .ninf) := by
  induction L with
  | nil => intro m hm; exact (REAL.fmax_ninf_right m hm).symm
  | cons x L ih =>
    intro m hm
    have hx : x ≠ .nan := hL x (List.mem_cons_self _ _)
    have hL1 : ∀ y, y ∈ L → y ≠ .nan := fun y hy => hL y (List.mem_cons_of_mem _ hy)
    simp only [List.foldl_cons]
    rw [ih hL1 _ (REAL.fmax_ne_nan m x hm), REAL.fmax_ninf_left x hx, ih hL1 x hx,
      REAL.fmax_assoc]

theorem misc_hausdorff_dist_innerB_spec (CABS : COMPLEX → REAL)
    (csub : COMPLEX → COMPLEX → COMPLEX) (vecA vecB : List COMPLEX) (i : Nat) (a : COMPLEX)
    (ha : vecA[i]? = some a) :
    ∀ (n j : Nat) (d : REAL), j + n ≤ vecB.length → d ≠ .nan →
      misc_hausdorff_dist_innerB CABS csub vecA vecB i n j d
        = some ((((vecB.drop j).take n).map (fun b => CABS (csub a b))).foldl REAL.fmin d) := by
  intro n
  induction n with
  | zero => intro j d _ _; simp [misc_hausdorff_dist_innerB]
  | succ n ih =>
    intro j d hj hd
    have hjl : j < vecB.length := by omega
    have hdrop : (vecB.drop j).take (n + 1) = vecB[j] :: (vecB.drop (j + 1)).take n := by
      rw [List.drop_eq_getElem_cons hjl, List.take_succ_cons]
    simp only [misc_hausdorff_dist_innerB, ha, List.getElem?_eq_getElem hjl, hdrop, List.map_cons,
      List.foldl_cons]
    rw [← REAL.min_step d (CABS (csub a vecB[j])) hd]
    by_cases hlt : REAL.lt (CABS (csub a vecB[j])) d = true
    · have hne : CABS (csub a vecB[j]) ≠ .nan := by
        intro e; rw [e] at hlt; simp [REAL.lt] at hlt
      simp only [hlt, if_true]
      exact ih (j + 1) _ (by omega) hne
    · simp only [hlt, if_false]
      exact ih (j + 1) d (by omega) hd

theorem misc_hausdorff_dist_innerA_spec (CABS : COMPLEX → REAL)
    (csub : COMPLEX → COMPLEX → COMPLEX) (vecA vecB : List COMPLEX) (j : Nat) (b : COMPLEX)
    (hb : vecB[j]? = some b) :
    ∀ (n i : Nat) (d : REAL), i + n ≤ vecA.length → d ≠ .nan →
      misc_hausdorff_dist_innerA CABS csub vecA vecB j n i d
        = some ((((vecA.drop i).take n).map (fun a => CABS (csub a b))).foldl REAL.fmin d) := by
  intro n
  induction n with
  | zero => intro i d _ _; simp [misc_hausdorff_dist_innerA]
  | succ n ih =>
    intro i d hi hd
    have hil : i < vecA.length := by omega
    have hdrop : (vecA.drop i).take (n + 1) = vecA[i] :: (vecA.drop (i + 1)).take n := by
      rw [List.drop_eq_getElem_cons hil, List.take_succ_cons]
    simp only [misc_hausdorff_dist_innerA, hb, List.getElem?_eq_getElem hil, hdrop, List.map_cons,
      List.foldl_cons]
    rw [← REAL.min_step d (CABS (csub vecA[i] b)) hd]
    by_cases hlt : REAL.lt (CABS (csub vecA[i] b)) d = true
    · have hne : CABS (csub vecA[i] b) ≠ .nan := by
        intro e; rw [e] at hlt; simp [REAL.lt] at hlt
      simp only [hlt, if_true]
      exact ih (i + 1) _ (by omega) hne
    · simp only [hlt, if_false]
      exact ih (i + 1) d (by omega) hd

theorem min_dist_to_ne_nan (dist : COMPLEX → COMPLEX → REAL) (B : List COMPLEX) (a : COMPLEX) :
    min_dist_to dist B a ≠ .nan :=
  foldl_fmin_ne_nan _ _ (by simp)

theorem min_dist_from_ne_nan (dist : COMPLEX → COMPLEX → REAL) (A : List COMPLEX) (b : COMPLEX) :
    min_dist_from dist A b ≠ .nan :=
  foldl_fmin_ne_nan _ _ (by simp)

theorem misc_hausdorff_dist_loopA_spec (CABS : COMPLEX → REAL)
    (csub : COMPLEX → COMPLEX → COMPLEX) (vecA vecB : List COMPLEX) (lenB : Nat)
    (hB : lenB ≤ vecB.length) :
    ∀ (n i : Nat) (m : REAL), i + n ≤ vecA.length → m ≠ .nan →
      misc_hausdorff_dist_loopA CABS csub vecA vecB lenB n i m
        = some ((((vecA.drop i).take n).map
            (min_dist_to (fun a b => CABS (csub a b)) (vecB.take lenB))).foldl REAL.fmax m) := by
  intro n
  induction n with
  | zero => intro i m _ _; simp [misc_hausdorff_dist_loopA]
  | succ n ih =>
    intro i m hi hm
    have hil : i < vecA.length := by omega
    have hdrop : (vecA.drop i).take (n + 1) = vecA[i] :: (vecA.drop (i + 1)).take n := by
      rw [List.drop_eq_getElem_cons hil, List.take_succ_cons]
    have hin := misc_hausdorff_dist_innerB_spec CABS csub vecA vecB i vecA[i]
      (List.getElem?_eq_getElem hil) lenB 0 .pinf (by omega) (by simp)
    rw [List.drop_zero] at hin
    have hd := min_dist_to_ne_nan (fun a b => CABS (csub a b)) (vecB.take lenB) vecA[i]
    simp only [misc_hausdorff_dist_loopA, hin, hdrop, List.map_cons, List.foldl_cons]
    rw [← REAL.max_step m _ hm hd]
    by_cases hgt : REAL.gt (min_dist_to (fun a b => CABS (csub a b)) (vecB.take lenB) vecA[i]) m
        = true
    · simp only [min_dist_to] at hgt ⊢
      simp only [hgt, if_true]
      exact ih (i + 1) _ (by omega) hd
    · simp only [min_dist_to] at hgt ⊢
      simp only [hgt, if_false]
      exact ih (i + 1) m (by omega) hm

theorem misc_hausdorff_dist_loopB_spec (CABS : COMPLEX → REAL)
    (csub : COMPLEX → COMPLEX → COMPLEX) (vecA vecB : List COMPLEX) (lenA : Nat)
    (hA : lenA ≤ vecA.length) :
    ∀ (n j : Nat) (m : REAL), j + n ≤ vecB.length → m ≠ .nan →
      misc_hausdorff_dist_loopB CABS csub vecA vecB lenA n j m
        = some ((((vecB.drop j).take n).map
            (min_dist_from (fun a b => CABS (csub a b)) (vecA.take lenA))).foldl REAL.fmax m) := by
  intro n
  induction n with
  | zero => intro j m _ _; simp [misc_hausdorff_dist_loopB]
  | succ n ih =>
    intro j m hj hm
    have hjl : j < vecB.length := by omega
    have hdrop : (vecB.drop j).take (n + 1) = vecB[j] :: (vecB.drop (j + 1)).take n := by
      rw [List.drop_eq_getElem_cons hjl, List.take_succ_cons]
    have hin := misc_hausdorff_dist_innerA_spec CABS csub vecA vecB j vecB[j]
      (List.getElem?_eq_getElem hjl) lenA 0 .pinf (by omega) (by simp)
    rw [List.drop_zero] at hin
    have hd := min_dist_from_ne_nan (fun a b => CABS (csub a b)) (vecA.take lenA) vecB[j]
    simp only [misc_hausdorff_dist_loopB, hin, hdrop, List.map_cons, List.foldl_cons]
    rw [← REAL.max_step m _ hm hd]
    by_cases hgt : REAL.gt (min_dist_from (fun a b => CABS (csub a b)) (vecA.take lenA) vecB[j]) m
        = true
    · simp only [min_dist_from] at hgt ⊢
      simp only [hgt, if_true]
      exact ih (j + 1) _ (by omega) hd
    · simp only [min_dist_from] at hgt ⊢
      simp only [hgt, if_false]
      exact ih (j + 1) m (by omega) hm

/-- The value `misc_hausdorff_dist` returns: the sentinel -1 joined, by
`fmax`, with the largest least distance of each direction. -/
theorem misc_hausdorff_dist_run (CABS : COMPLEX → REAL) (csub : COMPLEX → COMPLEX → COMPLEX)
    (lenA lenB : Nat) (vecA vecB : List COMPLEX)
    (hA : lenA ≤ vecA.length) (hB : lenB ≤ vecB.length) :
    misc_hausdorff_dist CABS csub lenA vecA lenB vecB
      = some (REAL.fmax
          (REAL.fmax (.fin (-1))
            (((vecA.take lenA).map
              (min_dist_to (fun a b => CABS (csub a b)) (vecB.take lenB))).foldl REAL.fmax .ninf))
          (((vecB.take lenB).map
            (min_dist_from (fun a b => CABS (csub a b)) (vecA.take lenA))).foldl
              REAL.fmax .ninf)) := by
  have h1 := misc_hausdorff_dist_loopA_spec CABS csub vecA vecB lenB hB lenA 0 (.fin (-1))
    (by omega) (by simp)
  rw [List.drop_zero] at h1
  have hne1 : ∀ x, x ∈ (vecA.take lenA).map
      (min_dist_to (fun a b => CABS (csub a b)) (vecB.take lenB)) → x ≠ .nan := by
    intro x hx
    obtain ⟨a, _, rfl⟩ := List.mem_map.mp hx
    exact min_dist_to_ne_nan _ _ _
  have hne2 : ∀ x, x ∈ (vecB.take lenB).map
      (min_dist_from (fun a b => CABS (csub a b)) (vecA.take lenA)) → x ≠ .nan := by
    intro x hx
    obtain ⟨b, _, rfl⟩ := List.mem_map.mp hx
    exact min_dist_from_ne_nan _ _ _
  have hm : ((vecA.take lenA).map
      (min_dist_to (fun a b => CABS (csub a b)) (vecB.take lenB))).foldl REAL.fmax (.fin (-1))
        ≠ .nan := foldl_fmax_ne_nan _ _ (by simp)
  have h2 := misc_hausdorff_dist_loopB_spec CABS csub vecA vecB lenA hA lenB 0 _ (by omega) hm
  rw [List.drop_zero] at h2
  simp only [misc_hausdorff_dist, h1, h2]
  rw [foldl_fmax_init _ hne2 _ hm, foldl_fmax_init _ hne1 _ (by simp)]

theorem REAL.fmin_nonneg (d t : REAL) (hd : REAL.le (.fin 0) d = true)
    (ht : REAL.lt t (.fin 0) = false) : REAL.le (.fin 0) (REAL.fmin d t) = true := by
  cases d <;> cases t <;> simp_all [REAL.fmin, REAL.le, REAL.lt]

theorem REAL.fmax_nonneg_left (m x : REAL) (hm : REAL.le (.fin 0) m = true) :
    REAL.le (.fin 0) (REAL.fmax m x) = true := by
  cases m <;> cases x <;> simp_all [REAL.fmax, REAL.le]

theorem REAL.fmax_nonneg_right (m x : REAL) (hx : REAL.le (.fin 0) x = true) :
    REAL.le (.fin 0) (REAL.fmax m x) = true := by
  cases m <;> cases x <;> simp_all [REAL.fmax, REAL.le]

theorem REAL.fmax_sentinel (s : REAL) (hs : REAL.le (.fin 0) s = true) :
    REAL.fmax (.fin (-1)) s = s := by
  cases s <;> simp_all [REAL.fmax, REAL.le]
  linarith

theorem min_dist_to_nonneg (dist : COMPLEX → COMPLEX → REAL)
    (hnn : ∀ a b, REAL.lt (dist a b) (.fin 0) = false) (B : List COMPLEX) (a : COMPLEX) :
    REAL.le (.fin 0) (min_dist_to dist B a) = true := by
  have key : ∀ (L : List COMPLEX) (d : REAL), REAL.le (.fin 0) d = true →
      REAL.le (.fin 0) ((L.map (fun b => dist a b)).foldl REAL.fmin d) = true := by
    intro L
    induction L with
    | nil => intro d hd; exact hd
    | cons b L ih => intro d hd; exact ih _ (REAL.fmin_nonneg d _ hd (hnn a b))
  exact key B .pinf rfl

theorem min_dist_from_nonneg (dist : COMPLEX → COMPLEX → REAL)
    (hnn : ∀ a b, REAL.lt (dist a b) (.fin 0) = false) (A : List COMPLEX) (b : COMPLEX) :
    REAL.le (.fin 0) (min_dist_from dist A b) = true := by
  have key : ∀ (L : List COMPLEX) (d : REAL), REAL.le (.fin 0) d = true →
      REAL.le (.fin 0) ((L.map (fun a => dist a b)).foldl REAL.fmin d) = true := by
    intro L
    induction L with
    | nil => intro d hd; exact hd
    | cons a L ih => intro d hd; exact ih _ (REAL.fmin_nonneg d _ hd (hnn a b))
  exact key A .pinf rfl

theorem foldl_fmax_nonneg (L : List REAL) (hL : ∀ x, x ∈ L → REAL.le (.fin 0) x = true) :
    ∀ m, (REAL.le (.fin 0) m = true ∨ L ≠ []) → REAL.le (.fin 0) (L.foldl REAL.fmax m) = true := by
  induction L with
  | nil =>
    intro m h
    rcases h with h | h
    · exact h
    · exact absurd rfl h
  | cons x L ih =>
    intro m _
    exact ih (fun y hy => hL y (List.mem_cons_of_mem _ hy)) _
      (Or.inl (REAL.fmax_nonneg_right m x (hL x (List.mem_cons_self _ _))))

/-- C16. For non-empty arrays `A` and `B`, `misc_hausdorff_dist` returns the
two-sided Hausdorff distance
`max(max over a of min over b of |a-b|, max over b of min over a of |a-b|)`,
and that value is `>= 0`, never the sentinel -1 the code starts from. The
modulus of the library enters through the assumption that it is never
negative. -/
theorem misc_hausdorff_dist_is_hausdorff (CABS : COMPLEX → REAL)
    (csub : COMPLEX → COMPLEX → COMPLEX) (lenA lenB : Nat) (vecA vecB : List COMPLEX)
    (hnn : ∀ z, REAL.lt (CABS z) (.fin 0) = false)
    (hA1 : 1 ≤ lenA) (hA : lenA ≤ vecA.length) (hB1 : 1 ≤ lenB) (hB : lenB ≤ vecB.length) :
    misc_hausdorff_dist CABS csub lenA vecA lenB vecB
      = some (hausdorff_ref (fun a b => CABS (csub a b)) (vecA.take lenA) (vecB.take lenB)) ∧
    REAL.ge (hausdorff_ref (fun a b => CABS (csub a b)) (vecA.take lenA) (vecB.take lenB))
      (.fin 0) = true := by
  have hnn2 : ∀ a b, REAL.lt ((fun a b => CABS (csub a b)) a b) (.fin 0) = false :=
    fun a b => hnn _
  have hsA : REAL.le (.fin 0) (((vecA.take lenA).map
      (min_dist_to (fun a b => CABS (csub a b)) (vecB.take lenB))).foldl REAL.fmax .ninf)
        = true := by
    apply foldl_fmax_nonneg
    · intro x hx
      obtain ⟨a, _, rfl⟩ := List.mem_map.mp hx
      exact min_dist_to_nonneg _ hnn2 _ _
    · right
      intro h
      have := congrArg List.length h
      simp only [List.length_map, List.length_take, List.length_nil] at this
      omega
  have hsB : REAL.le (.fin 0) (((vecB.take lenB).map
      (min_dist_from (fun a b => CABS (csub a b)) (vecA.take lenA))).foldl REAL.fmax .ninf)
        = true := by
    apply foldl_fmax_nonneg
    · intro x hx
      obtain ⟨b, _, rfl⟩ := List.mem_map.mp hx
      exact min_dist_from_nonneg _ hnn2 _ _
    · right
      intro h
      have := congrArg List.length h
      simp only [List.length_map, List.length_take, List.length_nil] at this
      omega
  constructor
  · rw [misc_hausdorff_dist_run CABS csub lenA lenB vecA vecB hA hB, REAL.fmax_sentinel _ hsA]
    rfl
  · exact REAL.fmax_nonneg_right _ _ hsB

/-- C17. `misc_hausdorff_dist` is symmetric in its two point sets:
`misc_hausdorff_dist(lenA, A, lenB, B) = misc_hausdorff_dist(lenB, B, lenA, A)`
for all arrays, empty ones and ones holding NaN included. The library enters
through the assumption `|a - b| = |b - a|`. -/
theorem misc_hausdorff_dist_symmetric (CABS : COMPLEX → REAL)
    (csub : COMPLEX → COMPLEX → COMPLEX) (lenA lenB : Nat) (vecA vecB : List COMPLEX)
    (hsym : ∀ a b, CABS (csub a b) = CABS (csub b a))
    (hA : lenA ≤ vecA.length) (hB : lenB ≤ vecB.length) :
    misc_hausdorff_dist CABS csub lenA vecA lenB vecB
      = misc_hausdorff_dist CABS csub lenB vecB lenA vecA := by
  rw [misc_hausdorff_dist_run CABS csub lenA lenB vecA vecB hA hB,
    misc_hausdorff_dist_run CABS csub lenB lenA vecB vecA hB hA]
  have e1 : min_dist_to (fun a b => CABS (csub a b)) (vecA.take lenA)
      = min_dist_from (fun a b => CABS (csub a b)) (vecA.take lenA) := by
    funext b
    simp only [min_dist_to, min_dist_from, hsym b]
  have e2 : min_dist_from (fun a b => CABS (csub a b)) (vecB.take lenB)
      = min_dist_to (fun a b => CABS (csub a b)) (vecB.take lenB) := by
    funext a
    simp only [min_dist_to, min_dist_from, hsym a]
  rw [e1, e2, REAL.fmax_assoc, REAL.fmax_assoc]
  congr 2
  exact REAL.fmax_comm _ _

theorem CABS_real_axis_symm (a b : COMPLEX) :
    CABS_real_axis (csub_exact a b) = CABS_real_axis (csub_exact b a) := by
  rcases a with ⟨ar, ai⟩
  rcases b with ⟨br, bi⟩
  cases ar <;> cases br <;> simp [CABS_real_axis, csub_exact, REAL.sub, FABS, abs_sub_comm]

/-- Witness of C16: A = {0, 10} and B = {1, 4} on the real axis; the least
distances are 1 and 6 from A, 1 and 4 from B, and the call returns 6. -/
theorem misc_hausdorff_dist_is_hausdorff_witness :
    (misc_hausdorff_dist CABS_real_axis csub_exact 2 [⟨.fin 0, .fin 0⟩, ⟨.fin 10, .fin 0⟩] 2
        [⟨.fin 1, .fin 0⟩, ⟨.fin 4, .fin 0⟩]
      = some (hausdorff_ref (fun a b => CABS_real_axis (csub_exact a b))
          (List.take 2 [⟨.fin 0, .fin 0⟩, ⟨.fin 10, .fin 0⟩])
          (List.take 2 [⟨.fin 1, .fin 0⟩, ⟨.fin 4, .fin 0⟩])) ∧
    REAL.ge (hausdorff_ref (fun a b => CABS_real_axis (csub_exact a b))
        (List.take 2 [⟨.fin 0, .fin 0⟩, ⟨.fin 10, .fin 0⟩])
        (List.take 2 [⟨.fin 1, .fin 0⟩, ⟨.fin 4, .fin 0⟩])) (.fin 0) = true) ∧
    misc_hausdorff_dist CABS_real_axis csub_exact 2 [⟨.fin 0, .fin 0⟩, ⟨.fin 10, .fin 0⟩] 2
        [⟨.fin 1, .fin 0⟩, ⟨.fin 4, .fin 0⟩]
      = some (.fin 6) :=
  ⟨misc_hausdorff_dist_is_hausdorff CABS_real_axis csub_exact 2 2
      [⟨.fin 0, .fin 0⟩, ⟨.fin 10, .fin 0⟩] [⟨.fin 1, .fin 0⟩, ⟨.fin 4, .fin 0⟩]
      CABS_real_axis_not_neg (by decide) (by decide) (by decide) (by decide),
    by decide!⟩

/-- Witness of C17: A = {0, 10} and B = {1} on the real axis. -/
theorem misc_hausdorff_dist_symmetric_witness :
    misc_hausdorff_dist CABS_real_axis csub_exact 2 [⟨.fin 0, .fin 0⟩, ⟨.fin 10, .fin 0⟩] 1
        [⟨.fin 1, .fin 0⟩]
      = misc_hausdorff_dist CABS_real_axis csub_exact 1 [⟨.fin 1, .fin 0⟩] 2
        [⟨.fin 0, .fin 0⟩, ⟨.fin 10, .fin 0⟩] :=
  misc_hausdorff_dist_symmetric CABS_real_axis csub_exact 2 1
    [⟨.fin 0, .fin 0⟩, ⟨.fin 10, .fin 0⟩] [⟨.fin 1, .fin 0⟩] CABS_real_axis_symm (by decide)
    (by decide)

/-! ## misc_rel_err -/

theorem misc_rel_err_loop_spec (CABS : COMPLEX → REAL) (csub : COMPLEX → COMPLEX → COMPLEX)
    (fadd : REAL → REAL → REAL) (numer exact : List COMPLEX) :
    ∀ (k i : Nat) (n d : REAL), i + k ≤ numer.length → i + k ≤ exact.length →
      misc_rel_err_loop CABS csub fadd numer exact k i n d
        = some
          ((List.zipWith (fun x y => CABS (csub x y)) ((numer.drop i).take k)
              ((exact.drop i).take k)).foldl fadd n,
            (((exact.drop i).take k).map CABS).foldl fadd d) := by
  intro k
  induction k with
  | zero => intro i n d _ _; simp [misc_rel_err_loop]
  | succ k ih =>
    intro i n d h1 h2
    have hi1 : i < numer.length := by omega
    have hi2 : i < exact.length := by omega
    have hd1 : (numer.drop i).take (k + 1) = numer[i] :: (numer.drop (i + 1)).take k := by
      rw [List.drop_eq_getElem_cons hi1, List.take_succ_cons]
    have hd2 : (exact.drop i).take (k + 1) = exact[i] :: (exact.drop (i + 1)).take k := by
      rw [List.drop_eq_getElem_cons hi2, List.take_succ_cons]
    simp only [misc_rel_err_loop, List.getElem?_eq_getElem hi1, List.getElem?_eq_getElem hi2,
      hd1, hd2, List.zipWith_cons_cons, List.map_cons, List.foldl_cons]
    exact ih (i + 1) _ _ (by omega) (by omega)

/-- The value `misc_rel_err` returns for `len >= 0`: the quotient of the two
sums, each accumulated in index order from 0. -/
theorem misc_rel_err_run (CABS : COMPLEX → REAL) (csub : COMPLEX → COMPLEX → COMPLEX)
    (fadd fdiv : REAL → REAL → REAL) (len : Int) (numer exact : List COMPLEX)
    (h1 : len.toNat ≤ numer.length) (h2 : len.toNat ≤ exact.length) :
    misc_rel_err CABS csub fadd fdiv len numer exact
      = some (fdiv
          ((List.zipWith (fun x y => CABS (csub x y)) (numer.take len.toNat)
            (exact.take len.toNat)).foldl fadd (.fin 0))
          (((exact.take len.toNat).map CABS).foldl fadd (.fin 0))) := by
  have h := misc_rel_err_loop_spec CABS csub fadd numer exact len.toNat 0 (.fin 0) (.fin 0)
    (by omega) (by omega)
  simp only [List.drop_zero] at h
  simp only [misc_rel_err, h]

theorem foldl_fadd_zeros (CABS : COMPLEX → REAL) (csub : COMPLEX → COMPLEX → COMPLEX)
    (fadd : REAL → REAL → REAL) (hadd : fadd (.fin 0) (.fin 0) = .fin 0) :
    ∀ (L : List COMPLEX), (∀ v, v ∈ L → CABS (csub v v) = .fin 0) →
      (List.zipWith (fun x y => CABS (csub x y)) L L).foldl fadd (.fin 0) = .fin 0 := by
  intro L
  induction L with
  | nil => intro _; rfl
  | cons v L ih =>
    intro h
    simp only [List.zipWith_cons_cons, List.foldl_cons, h v (List.mem_cons_self _ _), hadd]
    exact ih (fun w hw => h w (List.mem_cons_of_mem _ hw))

/-- C19 as stated fails on a vector with an infinite entry: for
`x = [(+infinity, 0)]` the sum of `|x[i]|` is `+infinity > 0`, while
`x[0] - x[0]` is NaN, so that `misc_rel_err(1, x, x)` is NaN and not 0. -/
theorem misc_rel_err_infinite_entry :
    misc_rel_err CABS_real_axis csub_exact REAL.add REAL.div 1 [⟨.pinf, .fin 0⟩] [⟨.pinf, .fin 0⟩]
      = some .nan ∧
    REAL.gt (([(⟨.pinf, .fin 0⟩ : COMPLEX)].map CABS_real_axis).foldl REAL.add (.fin 0)) (.fin 0)
      = true := by
  decide

/-- C19, amended. For vectors of at least `len` entries, `misc_rel_err`
returns `(sum of |numer[i] - exact[i]|) / (sum of |exact[i]|)`, both sums
running over `i < len` in index order; and for a vector `x` of finite
entries with `sum of |x[i]| > 0` (which needs `len >= 1`),
`misc_rel_err(len, x, x) = 0`.
The library enters through the assumptions `|a - a| = 0` for finite `a`,
`0 + 0 = 0`, and `0 / d = 0` for `d > 0`. -/
theorem misc_rel_err_formula (CABS : COMPLEX → REAL) (csub : COMPLEX → COMPLEX → COMPLEX)
    (fadd fdiv : REAL → REAL → REAL) (len : Int) (numer exact x : List COMPLEX)
    (h1 : len.toNat ≤ numer.length) (h2 : len.toNat ≤ exact.length)
    (hx : len.toNat ≤ x.length)
    (hsub : ∀ a : COMPLEX, a.re.isFinite = true → a.im.isFinite = true →
      CABS (csub a a) = .fin 0)
    (hadd : fadd (.fin 0) (.fin 0) = .fin 0)
    (hdiv : ∀ d, REAL.gt d (.fin 0) = true → fdiv (.fin 0) d = .fin 0)
    (hfin : ∀ v, v ∈ x.take len.toNat → v.re.isFinite = true ∧ v.im.isFinite = true)
    (hpos : REAL.gt (((x.take len.toNat).map CABS).foldl fadd (.fin 0)) (.fin 0) = true) :
    misc_rel_err CABS csub fadd fdiv len numer exact
      = some (fdiv
          ((List.zipWith (fun a b => CABS (csub a b)) (numer.take len.toNat)
            (exact.take len.toNat)).foldl fadd (.fin 0))
          (((exact.take len.toNat).map CABS).foldl fadd (.fin 0))) ∧
    misc_rel_err CABS csub fadd fdiv len x x = some (.fin 0) := by
  refine ⟨misc_rel_err_run CABS csub fadd fdiv len numer exact h1 h2, ?_⟩
  rw [misc_rel_err_run CABS csub fadd fdiv len x x hx hx,
    foldl_fadd_zeros CABS csub fadd hadd _ (fun v hv => hsub v (hfin v hv).1 (hfin v hv).2),
    hdiv _ hpos]

theorem CABS_real_axis_sub_self (a : COMPLEX) (ha : a.re.isFinite = true) :
    CABS_real_axis (csub_exact a a) = .fin 0 := by
  rcases a with ⟨ar, ai⟩
  cases ar <;> simp_all [CABS_real_axis, csub_exact, REAL.sub, FABS, REAL.isFinite]

theorem REAL.zero_div_pos (d : REAL) (hd : REAL.gt d (.fin 0) = true) :
    REAL.div (.fin 0) d = .fin 0 := by
  cases d <;> simp_all [REAL.div, REAL.gt, REAL.lt]
  rename_i q
  intro h
  rw [h] at hd
  exact absurd hd (lt_irrefl _)

/-- Witness of C19 (amended): `numer = [1, 2]` and `x = exact = [3, 4]` on
the real axis, with exact addition and division. -/
theorem misc_rel_err_formula_witness :
    misc_rel_err CABS_real_axis csub_exact REAL.add REAL.div 2
        [⟨.fin 1, .fin 0⟩, ⟨.fin 2, .fin 0⟩] [⟨.fin 3, .fin 0⟩, ⟨.fin 4, .fin 0⟩]
      = some (REAL.div
          ((List.zipWith (fun a b => CABS_real_axis (csub_exact a b))
            (List.take (2 : Int).toNat [⟨.fin 1, .fin 0⟩, ⟨.fin 2, .fin 0⟩])
            (List.take (2 : Int).toNat [⟨.fin 3, .fin 0⟩, ⟨.fin 4, .fin 0⟩])).foldl REAL.add
              (.fin 0))
          (((List.take (2 : Int).toNat [⟨.fin 3, .fin 0⟩, ⟨.fin 4, .fin 0⟩]).map
            CABS_real_axis).foldl REAL.add (.fin 0))) ∧
    misc_rel_err CABS_real_axis csub_exact REAL.add REAL.div 2
        [⟨.fin 3, .fin 0⟩, ⟨.fin 4, .fin 0⟩] [⟨.fin 3, .fin 0⟩, ⟨.fin 4, .fin 0⟩]
      = some (.fin 0) :=
  misc_rel_err_formula CABS_real_axis csub_exact REAL.add REAL.div 2
    [⟨.fin 1, .fin 0⟩, ⟨.fin 2, .fin 0⟩] [⟨.fin 3, .fin 0⟩, ⟨.fin 4, .fin 0⟩]
    [⟨.fin 3, .fin 0⟩, ⟨.fin 4, .fin 0⟩] (by decide) (by decide) (by decide)
    (fun a ha _ => CABS_real_axis_sub_self a ha) (by simp [REAL.add])
    REAL.zero_div_pos (by decide) (by decide!)

/-! ## Round trip of the spectral-parameter maps -/

/-- C20. For a positive integer degree `d`, a step `eps_t > 0` and a complex
`lambda` with `-pi*d/(2*eps_t) < Re(lambda) <= pi*d/(2*eps_t)`, the map
`lambda = d*log(z)/(2i*eps_t)` (principal logarithm) undoes
`z = exp(2i*lambda*eps_t/d)`. -/
theorem kdv_z_to_lambda_lambda_to_z (d : ℕ) (eps_t : ℝ) (lam : ℂ) (hd : 0 < d)
    (he : 0 < eps_t) (h1 : -(Real.pi * d / (2 * eps_t)) < lam.re)
    (h2 : lam.re ≤ Real.pi * d / (2 * eps_t)) :
    kdv_z_to_lambda d eps_t (kdv_lambda_to_z d eps_t lam) = lam := by
  have hd0 : (0 : ℝ) < (d : ℝ) := by exact_mod_cast hd
  have hdc : (d : ℂ) ≠ 0 := by exact_mod_cast (Nat.pos_iff_ne_zero.mp hd)
  have hec : (eps_t : ℂ) ≠ 0 := by exact_mod_cast (ne_of_gt he)
  have him : (2 * Complex.I * lam * (eps_t : ℂ) / (d : ℂ)).im = 2 * lam.re * eps_t / d := by
    have e : 2 * Complex.I * lam * (eps_t : ℂ) / (d : ℂ)
        = ((2 * eps_t / d : ℝ) : ℂ) * (Complex.I * lam) := by
      push_cast
      field_simp
      ring
    rw [e, Complex.im_ofReal_mul]
    simp
    ring
  have hlo : -Real.pi < (2 * Complex.I * lam * (eps_t : ℂ) / (d : ℂ)).im := by
    rw [him]
    have := mul_lt_mul_of_pos_right h1 (by positivity : (0 : ℝ) < 2 * eps_t / d)
    have e : -(Real.pi * d / (2 * eps_t)) * (2 * eps_t / d) = -Real.pi := by
      field_simp
      ring
    have e2 : lam.re * (2 * eps_t / d) = 2 * lam.re * eps_t / d := by ring
    rw [e, e2] at this
    exact this
  have hhi : (2 * Complex.I * lam * (eps_t : ℂ) / (d : ℂ)).im ≤ Real.pi := by
    rw [him]
    have := mul_le_mul_of_nonneg_right h2 (by positivity : (0 : ℝ) ≤ 2 * eps_t / d)
    have e : Real.pi * d / (2 * eps_t) * (2 * eps_t / d) = Real.pi := by
      field_simp
    have e2 : lam.re * (2 * eps_t / d) = 2 * lam.re * eps_t / d := by ring
    rw [e, e2] at this
    exact this
  simp only [kdv_z_to_lambda, kdv_lambda_to_z]
  rw [Complex.log_exp hlo hhi]
  field_simp
  ring

/-- Witness of C20: degree 2, `eps_t = 1` and `lambda = 1 + i`; the real part
1 lies in `(-pi, pi]`. -/
theorem kdv_z_to_lambda_lambda_to_z_witness :
    kdv_z_to_lambda 2 1 (kdv_lambda_to_z 2 1 (1 + Complex.I)) = 1 + Complex.I :=
  kdv_z_to_lambda_lambda_to_z 2 1 (1 + Complex.I) (by decide) one_pos
    (by
      have := Real.pi_pos
      simp only [Complex.add_re, Complex.one_re, Complex.I_re]
      norm_num
      linarith)
    (by
      have := Real.pi_gt_three
      simp only [Complex.add_re, Complex.one_re, Complex.I_re]
      norm_num
      linarith)

/-! ## NaN coordinates and the two box filters -/

/-- C22. For `D >= 3` samples and a requested count `c1`, clamped to
`c = min (max c1 2) D`, with the stride `s = round(D/c)` and the count
`n = round(D/s)` on exact rationals: every index `k*s`, `k < n`, that
`misc_downsample` reads is at most `D - 1`, and the call never reads or
writes outside an array, whether the allocation succeeds or fails. -/
theorem misc_downsample_in_bounds (malloc : UINT → Option (List COMPLEX)) (D c1 c s n : Nat)
    (q : List COMPLEX) (p0 : Option (List COMPLEX)) (p1 : UINT × UINT)
    (hD : 3 ≤ D) (hq : q.length = D) (hcl : c = min (max c1 2) D)
    (hs : s = (ROUND ((D : ℚ) / (c : ℚ))).toNat) (hn : n = (ROUND ((D : ℚ) / (s : ℚ))).toNat)
    (hmal : ∀ buf, malloc n = some buf → buf.length = n) :
    (∀ k, k < n → k * s ≤ D - 1) ∧
    misc_downsample malloc D (some q) (some c1) (some p0) (some p1) ≠ none := by
  have harith : ∀ k, k < n → k * s ≤ D - 1 := by
    have hs1 := hs
    have hn1 := hn
    rw [ROUND_natCast_div] at hs1 hn1
    obtain ⟨_, a2, _, a4⟩ := downsample_arith D c s (by omega) (by omega) hs1
    rw [← hn1] at a2 a4
    intro k hk
    have : k * s ≤ (n - 1) * s := Nat.mul_le_mul_right _ (by omega)
    omega
  refine ⟨harith, ?_⟩
  rcases hm : malloc n with _ | buf
  · have e1 : ¬ D ≤ 2 := by omega
    have hx : (if (if c1 < 2 then 2 else c1) > D then D else (if c1 < 2 then 2 else c1)) = c := by
      split_ifs <;> omega
    simp only [misc_downsample, e1, if_false, hx, ← hs, ← hn, hm]
    simp
  · obtain ⟨_, _, _, qsub, h1, _⟩ :=
      misc_downsample_run malloc D c1 c s n q buf p0 p1 hD hq hcl hs hn hm (hmal buf hm)
    rw [h1]
    simp

/-- Witness of C22: D = 5 samples and a requested count of 2; the stride is
3, the count 2, and the indices read are 0 and 3. -/
theorem misc_downsample_in_bounds_witness :
    (∀ k, k < 2 → k * 3 ≤ 5 - 1) ∧
    misc_downsample (fun n => some (List.replicate n ⟨.fin 0, .fin 0⟩)) 5
        (some [⟨.fin 10, .fin 0⟩, ⟨.fin 11, .fin 0⟩, ⟨.fin 12, .fin 0⟩, ⟨.fin 13, .fin 0⟩,
          ⟨.fin 14, .fin 0⟩])
        (some 2) (some none) (some (0, 0)) ≠ none :=
  misc_downsample_in_bounds (fun n => some (List.replicate n ⟨.fin 0, .fin 0⟩)) 5 2 2 3 2
    [⟨.fin 10, .fin 0⟩, ⟨.fin 11, .fin 0⟩, ⟨.fin 12, .fin 0⟩, ⟨.fin 13, .fin 0⟩, ⟨.fin 14, .fin 0⟩]
    none (0, 0) (by decide) rfl (by decide) (by rw [ROUND_natCast_div])
    (by rw [ROUND_natCast_div])
    (fun buf h => by
      simp only [Option.some.injEq] at h
      rw [← h, List.length_replicate])

/-! ## misc_nextpowerof2 on large arguments -/

theorem misc_nextpowerof2_loop_stuck (w n : Nat) (hw : 1 ≤ w) (hn : 2 ^ (w - 1) < n) :
    ∀ (fuel r : Nat), (r = 0 ∨ ∃ k, k ≤ w - 1 ∧ r = 2 ^ k) →
      misc_nextpowerof2_loop w n fuel r = none := by
  intro fuel
  induction fuel with
  | zero =>
    intro r hr
    have hlt : r < n := by
      rcases hr with h | ⟨k, hk, h⟩
      · rw [h]; exact Nat.lt_of_le_of_lt (Nat.zero_le _) hn
      · rw [h]; exact Nat.lt_of_le_of_lt (Nat.pow_le_pow_right (by decide) hk) hn
    simp [misc_nextpowerof2_loop, hlt]
  | succ fuel ih =>
    intro r hr
    have hlt : r < n := by
      rcases hr with h | ⟨k, hk, h⟩
      · rw [h]; exact Nat.lt_of_le_of_lt (Nat.zero_le _) hn
      · rw [h]; exact Nat.lt_of_le_of_lt (Nat.pow_le_pow_right (by decide) hk) hn
    simp only [misc_nextpowerof2_loop, hlt, if_true]
    apply ih
    rcases hr with h | ⟨k, hk, h⟩
    · left; subst h; simp
    · subst h
      rcases Nat.lt_or_ge k (w - 1) with h1 | h1
      · right
        refine ⟨k + 1, by omega, ?_⟩
        rw [← Nat.pow_succ]
        exact Nat.mod_eq_of_lt (Nat.pow_lt_pow_right (by decide) (by omega))
      · left
        have hk1 : k = w - 1 := by omega
        have hpow : 2 ^ (w - 1) * 2 = 2 ^ w := by
          rw [← Nat.pow_succ]
          congr 1
          omega
        rw [hk1, hpow]
        exact Nat.mod_self _

/-- C23, the code on a large argument: on a `w`-bit `FNFT_UINT`, for every
`number` above `2^(w-1)` the loop `while (result < number) result *= 2;` is
never left, whatever number of iterations is granted: `result` runs through
`1, 2, ..., 2^(w-1)`, wraps to 0 and stays 0. -/
theorem misc_nextpowerof2_diverges (w fuel n : Nat) (hw : 1 ≤ w) (hn : 2 ^ (w - 1) < n) :
    misc_nextpowerof2 w fuel n = none := by
  have e0 : ¬ n = 0 := fun h => by rw [h] at hn; exact Nat.not_lt_zero _ hn
  have h1w : 1 % 2 ^ w = 2 ^ 0 := by
    rw [Nat.pow_zero]
    exact Nat.mod_eq_of_lt (Nat.one_lt_two_pow (by omega))
  simp only [misc_nextpowerof2, e0, if_false, h1w]
  exact misc_nextpowerof2_loop_stuck w n hw hn fuel _ (Or.inr ⟨0, by omega, rfl⟩)

/-- Witness of C23: a 64-bit unsigned type and the argument 2^63 + 1, which
fits the type, with 1000 iterations granted. -/
theorem misc_nextpowerof2_diverges_witness :
    misc_nextpowerof2 64 1000 (2 ^ 63 + 1) = none ∧ 2 ^ 63 + 1 < 2 ^ 64 :=
  ⟨misc_nextpowerof2_diverges 64 1000 (2 ^ 63 + 1) (by decide) (by decide), by decide⟩

/-! ## misc_merge applied twice -/

theorem misc_merge_inner_no_break (CABS : COMPLEX → REAL) (csub : COMPLEX → COMPLEX → COMPLEX)
    (tol : REAL) (vals : List COMPLEX) (i : Nat) (hi : i < vals.length) :
    ∀ (n j : Nat) (dist0 : REAL), j + n ≤ i →
      (∀ k a, j ≤ k → k < j + n → vals[k]? = some a →
        REAL.lt (CABS (csub a vals[i])) tol = false) →
      ∃ d, misc_merge_inner CABS csub tol vals i n j dist0 = some d ∧
        ((n = 0 ∧ d = dist0) ∨ REAL.lt d tol = false) := by
  intro n
  induction n with
  | zero => intro j dist0 _ _; exact ⟨dist0, rfl, Or.inl ⟨rfl, rfl⟩⟩
  | succ n ih =>
    intro j dist0 hj hfar
    have hjl : j < vals.length := by omega
    have hlt : REAL.lt (CABS (csub vals[j] vals[i])) tol = false :=
      hfar j vals[j] (Nat.le_refl _) (by omega) (List.getElem?_eq_getElem hjl)
    simp only [misc_merge_inner, List.getElem?_eq_getElem hjl, List.getElem?_eq_getElem hi]
    obtain ⟨d, h1, h2⟩ := ih (j + 1) (CABS (csub vals[j] vals[i])) (by omega)
      (fun k a hk1 hk2 hka => hfar k a (by omega) (by omega) hka)
    refine ⟨d, by simp [hlt, h1], Or.inr ?_⟩
    rcases h2 with ⟨_, h2⟩ | h2
    · rw [h2]; exact hlt
    · exact h2

theorem misc_merge_loop_keep_pairwise (CABS : COMPLEX → REAL)
    (csub : COMPLEX → COMPLEX → COMPLEX) (tol : REAL) :
    ∀ (n i : Nat) (dist0 : REAL) (vals : List COMPLEX), 1 ≤ i → i + n ≤ vals.length →
      (∀ j m a b, j < m → m < i + n → vals[j]? = some a → vals[m]? = some b →
        REAL.lt (CABS (csub a b)) tol = false) →
      misc_merge_loop CABS csub tol n i i dist0 vals = some (i + n, vals) := by
  intro n
  induction n with
  | zero => intro i dist0 vals _ _ _; rfl
  | succ n ih =>
    intro i dist0 vals hi1 hlen hfar
    have hi : i < vals.length := by omega
    obtain ⟨d, hd, hval⟩ :=
      misc_merge_inner_no_break CABS csub tol vals i hi i 0 dist0 (by omega)
        (fun k a _ hk2 hka => hfar k i a vals[i] (by omega) (by omega) hka
          (List.getElem?_eq_getElem hi))
    have hdz : REAL.lt d tol = false := by
      rcases hval with ⟨h0, _⟩ | h
      · omega
      · exact h
    simp only [misc_merge_loop, hd, hdz, List.getElem?_eq_getElem hi, set_getElem_same vals i hi]
    rw [show i + (n + 1) = i + 1 + n by omega]
    exact ih (i + 1) d vals (by omega) (by omega)
      (fun j m a b h1 h2 => hfar j m a b h1 (by omega))

/-- C24. The function `misc_merge` is idempotent: for every array of at
least `N` values and every `tol >= 0`, the first call returns SUCCESS with a
length `N1` and an array `vals1`, and a second call with the same `tol` on
that result returns SUCCESS with the same length `N1` and the same array
`vals1`, so the logical length and the surviving values are unchanged. -/
theorem misc_merge_idempotent (CABS : COMPLEX → REAL) (csub : COMPLEX → COMPLEX → COMPLEX)
    (N : Nat) (vals : List COMPLEX) (tol : REAL)
    (hN : N ≤ vals.length) (htol : REAL.le (.fin 0) tol = true) :
    ∃ (N1 : Nat) (vals1 : List COMPLEX),
      misc_merge CABS csub (some N) (some vals) tol = some ⟨.SUCCESS, some N1, some vals1⟩ ∧
      misc_merge CABS csub (some N1) (some vals1) tol
        = some ⟨.SUCCESS, some N1, some vals1⟩ := by
  by_cases h0 : N = 0
  · subst h0
    exact ⟨0, vals, rfl, rfl⟩
  · obtain ⟨N1, vals1, h1, h2, h3, h4, _, h6⟩ :=
      misc_merge_run CABS csub N vals tol (by omega) hN htol
    refine ⟨N1, vals1, h1, ?_⟩
    have hN1 : N1 ≤ vals1.length := by omega
    have hloop := misc_merge_loop_keep_pairwise CABS csub tol (N1 - 1) 1 (.fin (-1)) vals1
      (Nat.le_refl 1) (by omega)
      (fun j m a b hjm hm hja hmb => by
        have hm1 : m < N1 := by omega
        have hjl : j < (vals1.take N1).length := by rw [List.length_take]; omega
        have hml : m < (vals1.take N1).length := by rw [List.length_take]; omega
        have hp := List.pairwise_iff_getElem.1 h6 j m hjl hml hjm
        rw [List.getElem_take, List.getElem_take] at hp
        rw [List.getElem?_eq_getElem (by omega)] at hja hmb
        cases hja
        cases hmb
        exact hp)
    have e1 : ¬ N1 = 0 := by omega
    have e2 : 1 + (N1 - 1) = N1 := by omega
    rw [e2] at hloop
    simp only [misc_merge, e1, if_false, REAL.not_lt_of_le _ _ htol, hloop]
    rfl

/-- Witness of C24: the values 0, 3, 6 on the real axis and `tol = 5`. -/
theorem misc_merge_idempotent_witness :
    3 ≤ ([⟨.fin 0, .fin 0⟩, ⟨.fin 3, .fin 0⟩, ⟨.fin 6, .fin 0⟩] : List COMPLEX).length ∧
    REAL.le (.fin 0) (.fin 5) = true ∧
    ∃ (N1 : Nat) (vals1 : List COMPLEX),
      misc_merge CABS_real_axis csub_exact (some 3)
          (some [⟨.fin 0, .fin 0⟩, ⟨.fin 3, .fin 0⟩, ⟨.fin 6, .fin 0⟩]) (.fin 5)
        = some ⟨.SUCCESS, some N1, some vals1⟩ ∧
      misc_merge CABS_real_axis csub_exact (some N1) (some vals1) (.fin 5)
        = some ⟨.SUCCESS, some N1, some vals1⟩ :=
  ⟨by decide, by decide,
    misc_merge_idempotent CABS_real_axis csub_exact 3
      [⟨.fin 0, .fin 0⟩, ⟨.fin 3, .fin 0⟩, ⟨.fin 6, .fin 0⟩] (.fin 5) (by decide) (by decide)⟩

end FNFT
